import Mathlib

/-!
Shallow embedding of `src/generate_consensus_peaks/create_intersect_matrix.py`
(function `macs2_merged_expand` and the sample-discovery scan that precedes it).

Modelling conventions:
* Python strings become `List Char`; Python compares strings by code point,
  which matches the `LinearOrder Char` (on `Char.val`) lifted lexicographically
  to `List Char` by Mathlib's `LinearOrder (List α)` instance.
* An input row is modelled after the per-line parse (lines 117-127 of the
  source): the tab-split fields with the comma-split sequences already applied.
  `int(...)` fields are `Int`; `float(...)` fields are kept as the rendered
  text `str(float(x))` since the program only parses floats to immediately
  re-render them (line 125-127 then 155-161) and no claim depends on float
  arithmetic.
* Python `dict`s (insertion-ordered, unique keys) become association lists;
  updates keep the position of an existing key, new keys are appended.
* Python `sorted` is a stable sort; every `sorted(...)` in this program sorts
  a duplicate-free list under a total antisymmetric order, where the sorted
  permutation is unique, so `List.insertionSort` is an exact model.
* An out-of-range list subscript (the only failure mode reachable from a
  parsed row, an `IndexError`) is modelled by `Option`: `none` aborts the run.
-/

/-- Python strings, as lists of code points. -/
abbrev Str : Type := List Char

/-- One parsed input row, source lines 117-127: `lspl[0]`, `int(lspl[1])`,
`int(lspl[2])`, and the comma-split sequences of `lspl[3]`, `lspl[4]`,
`lspl[5]`, `lspl[8]`, `lspl[9]`, `lspl[10]`.  The float-valued sequences carry
the `str(float(x))` renderings. -/
structure RowT where
  chrom : Str
  mstart : Int
  mend : Int
  starts : List Int
  ends : List Int
  names : List Str
  fcs : List Str
  pvals : List Str
  qvals : List Str
deriving DecidableEq, Repr

/-- Worker for `pySplit`, structurally recursive on a fuel argument so that it
reduces inside the kernel; the fuel is always at least the string length. -/
def pySplitGo (sep : List Char) : Nat → List Char → List (List Char)
  | _, [] => [[]]
  | 0, _ :: _ => [[]]
  | fuel + 1, c :: rest =>
    if sep.isPrefixOf (c :: rest) ∧ sep ≠ [] then
      [] :: pySplitGo sep fuel (rest.drop (sep.length - 1))
    else
      match pySplitGo sep fuel rest with
      | [] => [[c]]
      | p :: ps => (c :: p) :: ps

/-- Python `s.split(sep)` for a non-empty separator `sep`: split on
non-overlapping occurrences of `sep`, scanning left to right.
`pySplit sep []` is `[[]]`, matching Python's `"".split(sep) == ['']`. -/
def pySplit (sep : List Char) (s : List Char) : List (List Char) :=
  pySplitGo sep s.length s

/-- Source line 96 / 131 / 151: `name.split(".")[0].split("_peak_")[0]`. -/
def sampleId (name : Str) : Str :=
  (pySplit ("_peak_".toList) ((pySplit (".".toList) name).headD [])).headD []

/-- Source line 132: `"_".join(sid.split("_")[:-1])`, the ReplicateGroup key. -/
def gid (sid : Str) : Str :=
  List.intercalate ("_".toList) ((pySplit ("_".toList) sid).dropLast)

/-- Python dict lookup on an association list (first matching key). -/
def lookupA (d : List (Str × List Str)) (k : Str) : Option (List Str) :=
  match d with
  | [] => none
  | (k', v) :: rest => if k' = k then some v else lookupA rest k

/-- Replace the value stored at key `k`, keeping the key's position. -/
def updateA (d : List (Str × List Str)) (k : Str) (v : List Str) :
    List (Str × List Str) :=
  d.map (fun p => if p.1 = k then (k, v) else p)

/-- Source lines 133-136: ensure `group_dict[gid]` exists, then append `sid`
to it if not already present. -/
def insertGroup (d : List (Str × List Str)) (sid : Str) : List (Str × List Str) :=
  match lookupA d (gid sid) with
  | none => d ++ [(gid sid, [sid])]
  | some sids => if sid ∈ sids then d else updateA d (gid sid) (sids ++ [sid])

/-- Source lines 130-136: the per-row `group_dict`, mapping each ReplicateGroup
to the distinct SampleIDs seen in it, in order of first appearance. -/
def groupDict (names : List Str) : List (Str × List Str) :=
  (names.map sampleId).foldl insertGroup []

/-- Source lines 139-142: `pass_rep_thresh_list`, the SampleIDs of every group
whose distinct-replicate count reaches `min_replicates`. -/
def passList (mr : Int) (names : List Str) : List Str :=
  (groupDict names).foldl
    (fun acc p => if mr ≤ (p.2.length : Int) then acc ++ p.2 else acc) []

/-- The five per-row accumulator dicts of source lines 145-149. -/
structure Dicts where
  fc_dict : List (Str × List Str)
  qval_dict : List (Str × List Str)
  pval_dict : List (Str × List Str)
  start_dict : List (Str × List Str)
  end_dict : List (Str × List Str)
deriving DecidableEq, Repr

/-- Source lines 153-167 for one dict: ensure the key exists, then append. -/
def bumpVal (d : List (Str × List Str)) (k : Str) (v : Str) :
    List (Str × List Str) :=
  match lookupA d k with
  | none => d ++ [(k, [v])]
  | some vs => updateA d k (vs ++ [v])

/-- Python `str` of an `int`. -/
def intToStr (i : Int) : Str := (toString i).toList

/-- Python `str` of a non-negative `int`. -/
def natToStr (n : Nat) : Str := (toString n).toList

/-- Source lines 150-167: the accumulation loop `for idx in range(len(names))`,
over the list of remaining indices.  A subscript beyond the end of one of the
five value sequences is Python's `IndexError`, modelled as `none`; the check
happens only when the source's SampleID is in `pass_rep_thresh_list`, exactly
as in the source. -/
def accumLoop (mr : Int) (r : RowT) (d : Dicts) : List Nat → Option Dicts
  | [] => some d
  | idx :: rest =>
    let sample := sampleId ((r.names.getD idx []))
    if sample ∈ passList mr r.names then
      match r.fcs.get? idx, r.qvals.get? idx, r.pvals.get? idx,
          r.starts.get? idx, r.ends.get? idx with
      | some fc, some qv, some pv, some st, some en =>
        accumLoop mr r
          { fc_dict := bumpVal d.fc_dict sample fc
            qval_dict := bumpVal d.qval_dict sample qv
            pval_dict := bumpVal d.pval_dict sample pv
            start_dict := bumpVal d.start_dict sample (intToStr st)
            end_dict := bumpVal d.end_dict sample (intToStr en) } rest
      | _, _, _, _, _ => none
    else accumLoop mr r d rest

/-- Source lines 145-167: run the accumulation loop over `range(len(names))`
starting from the five empty dicts. -/
def accumRow (mr : Int) (r : RowT) : Option Dicts :=
  accumLoop mr r ⟨[], [], [], [], []⟩ (List.range r.names.length)

/-- Source line 170: `samples = sorted(fc_dict.keys())`. -/
def rowSamples (d : Dicts) : List Str :=
  List.insertionSort (· ≤ ·) (d.fc_dict.map Prod.fst)

/-- Python `";".join(vs)`. -/
def joinVals (vs : List Str) : Str := List.intercalate (";".toList) vs

/-- Source lines 170-180: build `olist` for an emitted row.  `total` is the
value of `total_out_intervals` before this row is counted. -/
def buildOList (univ : List Str) (r : RowT) (total : Nat) (d : Dicts) :
    List Str :=
  let samples := rowSamples d
  let bool_list := univ.map
    (fun x => if x ∈ samples then "TRUE".toList else "FALSE".toList)
  let fc_list := univ.map
    (fun x => if x ∈ samples then joinVals ((lookupA d.fc_dict x).getD []) else "NA".toList)
  let qval_list := univ.map
    (fun x => if x ∈ samples then joinVals ((lookupA d.qval_dict x).getD []) else "NA".toList)
  let pval_list := univ.map
    (fun x => if x ∈ samples then joinVals ((lookupA d.pval_dict x).getD []) else "NA".toList)
  let start_list := univ.map
    (fun x => if x ∈ samples then joinVals ((lookupA d.start_dict x).getD []) else "NA".toList)
  let end_list := univ.map
    (fun x => if x ∈ samples then joinVals ((lookupA d.end_dict x).getD []) else "NA".toList)
  [r.chrom, intToStr r.mstart, intToStr r.mend,
      "Interval_".toList ++ natToStr (total + 1),
      natToStr r.names.length, natToStr samples.length] ++
    bool_list ++ fc_list ++ qval_list ++ pval_list ++ start_list ++ end_list

/-- Source lines 104-110: the output header fields. -/
def ofields (univ : List Str) : List Str :=
  ["chr".toList, "start".toList, "end".toList, "interval_id".toList,
      "num_peaks".toList, "num_samples".toList] ++
    univ.map (· ++ ".bool".toList) ++
    univ.map (· ++ ".fc".toList) ++
    univ.map (· ++ ".qval".toList) ++
    univ.map (· ++ ".pval".toList) ++
    univ.map (· ++ ".start".toList) ++
    univ.map (· ++ ".end".toList)

/-- Dict lookup for the combination-frequency dict. -/
def lookupC (c : List (List Str × Nat)) (k : List Str) : Option Nat :=
  match c with
  | [] => none
  | (k', n) :: rest => if k' = k then some n else lookupC rest k

/-- Source lines 184-186: `comb_freq_dict[tsamples] = 0` if absent, then
`comb_freq_dict[tsamples] += 1`. -/
def bumpComb (c : List (List Str × Nat)) (k : List Str) : List (List Str × Nat) :=
  match lookupC c k with
  | none => c ++ [(k, 1)]
  | some n => c.map (fun p => if p.1 = k then (k, n + 1) else p)

/-- Python's `<=` on a `(int, tuple-of-str)` pair: lexicographic, count first,
then the sample tuple under its lexicographic order. -/
def pairLe (a b : Nat × List Str) : Prop :=
  a.1 < b.1 ∨ (a.1 = b.1 ∧ a.2 ≤ b.2)

instance : DecidableRel pairLe := fun a b => by
  unfold pairLe
  infer_instance

/-- The order of a Python `sorted(..., reverse=True)` result on such pairs. -/
def pairGe (a b : Nat × List Str) : Prop := pairLe b a

instance : DecidableRel pairGe := fun a b => by
  unfold pairGe
  infer_instance

/-- Source line 192: `sorted([(comb_freq_dict[x], x) for x in keys],
reverse=True)`.  The pairs are pairwise distinct (dict keys are unique), so
the reverse-sorted list is the unique `pairGe`-sorted permutation. -/
def combItems (c : List (List Str × Nat)) : List (Nat × List Str) :=
  List.insertionSort pairGe (c.map (fun p => (p.2, p.1)))

/-- Source lines 193-194: one line per combination, `"&".join(v)`, a tab, the
count (without the trailing newline). -/
def intersectLines (c : List (List Str × Nat)) : List Str :=
  (combItems c).map
    (fun p => List.intercalate ("&".toList) p.2 ++ '\t' :: natToStr p.1)

/-- Python `set.add` on a list-modelled set (order of first insertion). -/
def setInsert (s : List Str) (x : Str) : List Str :=
  if x ∈ s then s else s ++ [x]

/-- Python `set.update` with an iterable. -/
def setUpdate (s : List Str) (xs : List Str) : List Str := xs.foldl setInsert s

/-- Source lines 91-96: the discovery scan accumulating `all_sample_names`. -/
def allSampleNames (rows : List RowT) : List Str :=
  rows.foldl (fun s r => setUpdate s (r.names.map sampleId)) []

/-- Source line 99: `sample_name_list = sorted(all_sample_names)`. -/
def sample_name_list (rows : List RowT) : List Str :=
  List.insertionSort (· ≤ ·) (allSampleNames rows)

/-- State threaded through the main loop of source lines 116-187: the output
lines written so far, `comb_freq_dict`, `total_out_intervals`, and whether an
`IndexError` has aborted the run (after which nothing more is written). -/
structure RunState where
  outLines : List (List Str)
  combFreq : List (List Str × Nat)
  total : Nat
  aborted : Bool
deriving DecidableEq, Repr

/-- Source lines 116-187 for one row.  On an `IndexError` the exception
propagates: the run is aborted and no further lines are produced. -/
def stepRow (univ : List Str) (mr : Int) (st : RunState) (r : RowT) :
    RunState :=
  if st.aborted then st
  else
    match accumRow mr r with
    | none => { st with aborted := true }
    | some d =>
      let samples := rowSamples d
      if samples.isEmpty then st
      else
        { outLines := st.outLines ++ [buildOList univ r st.total d]
          combFreq := bumpComb st.combFreq (List.insertionSort (· ≤ ·) samples)
          total := st.total + 1
          aborted := false }

/-- The whole observable output of `macs2_merged_expand`: the header line, the
emitted body lines, the final `comb_freq_dict`, the `.intersect.txt` lines,
and the abort flag (when `aborted` is true, Python raised before reaching the
summariser and the intersect file was never written). -/
structure MainOut where
  header : List Str
  body : List (List Str)
  combFreq : List (List Str × Nat)
  intersect : List Str
  aborted : Bool
deriving DecidableEq, Repr

/-- Source lines 68-194: the whole pipeline on a parsed input file. -/
def macs2_merged_expand (rows : List RowT) (mr : Int) : MainOut :=
  let univ := sample_name_list rows
  let final := rows.foldl (stepRow univ mr) ⟨[], [], 0, false⟩
  { header := ofields univ
    body := final.outLines
    combFreq := final.combFreq
    intersect := intersectLines final.combFreq
    aborted := final.aborted }

/-- The longest prefix of `s` that stops before the first occurrence of the
pattern `sep`; the whole of `s` when `sep` does not occur.  Stated from the
spec's words ("the substring before the first ...") to compare with the
source's split-based derivation. -/
def takeBeforeFirst (sep : List Char) : List Char → List Char
  | [] => []
  | c :: rest =>
    if sep.isPrefixOf (c :: rest) then [] else c :: takeBeforeFirst sep rest

/-- SampleID derivation as the spec words it: the substring before the first
"." and then the substring before the first "_peak_" fragment. -/
def sampleId_spec (name : Str) : Str :=
  takeBeforeFirst ("_peak_".toList) (takeBeforeFirst (".".toList) name)

/-- The key list of an association-list dict (Python `dict.keys()`). -/
def keysOf (d : List (Str × List Str)) : List Str := d.map Prod.fst

/-- The values collected for SampleID `s` over the processed indices, in
source order: `vals[idx]` for each `idx` whose source name derives to `s`. -/
def valsAt (vals : List Str) (names : List Str) (s : Str) (idxs : List Nat) :
    List Str :=
  idxs.filterMap
    (fun idx => if sampleId (names.getD idx []) = s then vals.get? idx else none)

/-- One component of the accumulation loop, abstracted over its value list:
`accumLoop` projected to a single dict.  It repeats the source's eligibility
test and the five subscripts so that it fails exactly when `accumLoop` does. -/
def accumOne (mr : Int) (r : RowT) (vals : List Str)
    (dd : List (Str × List Str)) : List Nat → Option (List (Str × List Str))
  | [] => some dd
  | idx :: rest =>
    let sample := sampleId (r.names.getD idx [])
    if sample ∈ passList mr r.names then
      match r.fcs.get? idx, r.qvals.get? idx, r.pvals.get? idx,
          r.starts.get? idx, r.ends.get? idx with
      | some _, some _, some _, some _, some _ =>
        accumOne mr r vals (bumpVal dd sample ((vals.get? idx).getD [])) rest
      | _, _, _, _, _ => none
    else accumOne mr r vals dd rest

/-!
## Lemmas: the string-splitting layer
-/

theorem pySplitGo_congr (sep : List Char) :
    ∀ (f1 f2 : Nat) (s : List Char), s.length ≤ f1 → s.length ≤ f2 →
    pySplitGo sep f1 s = pySplitGo sep f2 s := by
  intro f1
  induction f1 with
  | zero =>
    intro f2 s h1 h2
    match s with
    | [] =>
      match f2 with
      | 0 => rfl
      | g + 1 => rfl
    | c :: rest => simp at h1
  | succ g1 ih =>
    intro f2 s h1 h2
    match s with
    | [] =>
      match f2 with
      | 0 => rfl
      | g + 1 => rfl
    | c :: rest =>
      match f2 with
      | 0 => simp at h2
      | g2 + 1 =>
        simp only [List.length_cons] at h1 h2
        rw [pySplitGo, pySplitGo]
        by_cases hb : sep.isPrefixOf (c :: rest) ∧ sep ≠ []
        · rw [if_pos hb, if_pos hb,
            ih g2 (rest.drop (sep.length - 1))
              (by simp only [List.length_drop]; omega)
              (by simp only [List.length_drop]; omega)]
        · rw [if_neg hb, if_neg hb, ih g2 rest (by omega) (by omega)]

theorem pySplit_nil (sep : List Char) : pySplit sep [] = [[]] := rfl

theorem pySplit_cons (sep : List Char) (c : Char) (rest : List Char) :
    pySplit sep (c :: rest) =
      if sep.isPrefixOf (c :: rest) ∧ sep ≠ [] then
        [] :: pySplit sep (rest.drop (sep.length - 1))
      else
        match pySplit sep rest with
        | [] => [[c]]
        | p :: ps => (c :: p) :: ps := by
  show pySplitGo sep (rest.length + 1) (c :: rest) = _
  rw [pySplitGo]
  by_cases hb : sep.isPrefixOf (c :: rest) ∧ sep ≠ []
  · rw [if_pos hb, if_pos hb,
      pySplitGo_congr sep rest.length (rest.drop (sep.length - 1)).length
        (rest.drop (sep.length - 1)) (by simp only [List.length_drop]; omega)
        (le_refl _)]
    rfl
  · rw [if_neg hb, if_neg hb]
    rfl

theorem pySplit_ne_nil (sep : List Char) (s : List Char) : pySplit sep s ≠ [] := by
  match s with
  | [] => rw [pySplit_nil]; simp
  | c :: rest =>
    rw [pySplit_cons]
    split
    · simp
    · split <;> simp

theorem pySplit_headD (sep : List Char) (hsep : sep ≠ []) :
    ∀ s, (pySplit sep s).headD [] = takeBeforeFirst sep s := by
  intro s
  induction s with
  | nil => rw [pySplit_nil]; rfl
  | cons c rest ih =>
    rw [pySplit_cons, takeBeforeFirst]
    by_cases hpre : sep.isPrefixOf (c :: rest)
    · simp [hpre, hsep]
    · simp only [hpre, hsep, and_true, if_false, ite_false]
      cases hsp : pySplit sep rest with
      | nil => exact absurd hsp (pySplit_ne_nil sep rest)
      | cons p ps =>
        simp only [List.headD_cons]
        rw [← ih, hsp]
        simp

theorem takeBeforeFirst_of_not_infix (sep : List Char) (s : List Char)
    (h : ¬ sep <:+: s) : takeBeforeFirst sep s = s := by
  induction s with
  | nil => rfl
  | cons c rest ih =>
    rw [takeBeforeFirst]
    by_cases hpre : sep.isPrefixOf (c :: rest)
    · exact absurd ((List.isPrefixOf_iff_prefix.mp hpre).isInfix) h
    · rw [if_neg hpre, ih (fun hin => h (List.infix_cons hin))]

theorem singleton_isPrefixOf_cons (c c' : Char) (rest : List Char) :
    [c].isPrefixOf (c' :: rest) = (c == c') := by
  simp [List.isPrefixOf]

theorem takeBeforeFirst_single_not_mem (c : Char) (s : List Char) (h : c ∉ s) :
    takeBeforeFirst [c] s = s := by
  induction s with
  | nil => rfl
  | cons c' rest ih =>
    rw [takeBeforeFirst]
    have hcc : c ≠ c' := fun he => h (by rw [he]; exact List.mem_cons_self c' rest)
    have hne : ¬ ([c].isPrefixOf (c' :: rest) = true) := by
      rw [singleton_isPrefixOf_cons]
      simpa using hcc
    rw [if_neg hne, ih (fun hm => h (List.mem_cons_of_mem c' hm))]

theorem sampleId_eq_spec (name : Str) : sampleId name = sampleId_spec name := by
  rw [sampleId, sampleId_spec, pySplit_headD _ (by decide),
    pySplit_headD _ (by decide)]

theorem pySplit_single_not_mem (c : Char) (s : List Char) (h : c ∉ s) :
    pySplit [c] s = [s] := by
  induction s with
  | nil => rw [pySplit_nil]
  | cons c' rest ih =>
    rw [pySplit_cons]
    have hcc : c ≠ c' := fun he => h (by rw [he]; exact List.mem_cons_self c' rest)
    have hne : ¬ ([c].isPrefixOf (c' :: rest) = true ∧ [c] ≠ []) := by
      rw [singleton_isPrefixOf_cons]
      intro hand
      exact hcc (by simpa using hand.1)
    rw [if_neg hne, ih (fun hm => h (List.mem_cons_of_mem c' hm))]

theorem gid_of_no_underscore (sid : Str) (h : ∀ c ∈ sid, c ≠ '_') :
    gid sid = [] := by
  rw [gid]
  have hmem : '_' ∉ sid := fun hm => (h _ hm) rfl
  have : ("_".toList) = ['_'] := rfl
  rw [this, pySplit_single_not_mem _ _ hmem]
  simp [List.intercalate]

/-!
## Lemmas: association-list dictionaries
-/

theorem lookupA_eq_none (d : List (Str × List Str)) (k : Str) :
    lookupA d k = none ↔ k ∉ keysOf d := by
  induction d with
  | nil => simp [lookupA, keysOf]
  | cons p rest ih =>
    obtain ⟨k', v⟩ := p
    by_cases h : k' = k
    · subst h
      simp [lookupA, keysOf]
    · simp only [lookupA, if_neg h, keysOf, List.map_cons, List.mem_cons]
      rw [ih]
      simp [keysOf, Ne.symm h]

theorem lookupA_mem (d : List (Str × List Str)) (k : Str) (v : List Str)
    (h : lookupA d k = some v) : (k, v) ∈ d := by
  induction d with
  | nil => simp [lookupA] at h
  | cons p rest ih =>
    obtain ⟨k', v'⟩ := p
    by_cases hk : k' = k
    · subst hk
      rw [lookupA, if_pos rfl] at h
      injection h with h
      subst h
      exact List.mem_cons_self _ _
    · rw [lookupA, if_neg hk] at h
      exact List.mem_cons_of_mem _ (ih h)

theorem mem_lookupA (d : List (Str × List Str)) (k : Str) (v : List Str)
    (hnd : (keysOf d).Nodup) (h : (k, v) ∈ d) : lookupA d k = some v := by
  induction d with
  | nil => simp at h
  | cons p rest ih =>
    obtain ⟨k', v'⟩ := p
    simp only [keysOf, List.map_cons, List.nodup_cons] at hnd
    rcases List.mem_cons.mp h with he | hm
    · injection he with he1 he2
      subst he1
      subst he2
      rw [lookupA, if_pos rfl]
    · have hk : k' ≠ k := by
        intro he
        subst he
        exact hnd.1 (by simpa [keysOf] using List.mem_map_of_mem Prod.fst hm)
      rw [lookupA, if_neg hk]
      exact ih hnd.2 hm

theorem keysOf_updateA (d : List (Str × List Str)) (k : Str) (v : List Str) :
    keysOf (updateA d k v) = keysOf d := by
  induction d with
  | nil => rfl
  | cons p rest ih =>
    obtain ⟨k', v'⟩ := p
    by_cases h : k' = k
    · subst h
      simp only [updateA, keysOf, List.map_cons] at ih ⊢
      simpa using ih
    · simp only [updateA, keysOf, List.map_cons] at ih ⊢
      rw [if_neg h]
      simpa using ih

theorem lookupA_updateA_self (d : List (Str × List Str)) (k : Str)
    (v : List Str) (hk : k ∈ keysOf d) : lookupA (updateA d k v) k = some v := by
  induction d with
  | nil => simp [keysOf] at hk
  | cons p rest ih =>
    obtain ⟨k', v'⟩ := p
    simp only [updateA, List.map_cons]
    by_cases h : k' = k
    · subst h
      have hhead : (if (k', v').1 = k' then (k', v) else (k', v')) = (k', v) := by
        simp
      rw [hhead, lookupA, if_pos rfl]
    · have hmem : k ∈ keysOf rest := by
        rcases List.mem_cons.mp hk with he | hm
        · exact absurd he.symm h
        · exact hm
      have hhead : (if (k', v').1 = k then (k, v) else (k', v')) = (k', v') := by
        simp [h]
      rw [hhead, lookupA, if_neg h]
      exact ih hmem

theorem lookupA_updateA_ne (d : List (Str × List Str)) (k k' : Str)
    (v : List Str) (hk : k' ≠ k) : lookupA (updateA d k v) k' = lookupA d k' := by
  induction d with
  | nil => rfl
  | cons p rest ih =>
    obtain ⟨k0, v0⟩ := p
    simp only [updateA, List.map_cons] at ih ⊢
    by_cases h : k0 = k
    · subst h
      have hhead : (if (k0, v0).1 = k0 then (k0, v) else (k0, v0)) = (k0, v) := by
        simp
      rw [hhead, lookupA, if_neg (Ne.symm hk), lookupA, if_neg (Ne.symm hk)]
      exact ih
    · have hhead : (if (k0, v0).1 = k then (k, v) else (k0, v0)) = (k0, v0) := by
        simp [h]
      rw [hhead]
      by_cases h2 : k0 = k'
      · subst h2
        rw [lookupA, if_pos rfl, lookupA, if_pos rfl]
      · rw [lookupA, if_neg h2, lookupA, if_neg h2]
        exact ih

theorem lookupA_append_single_self (d : List (Str × List Str)) (k : Str)
    (v : List Str) (hk : k ∉ keysOf d) :
    lookupA (d ++ [(k, v)]) k = some v := by
  induction d with
  | nil => simp [lookupA]
  | cons p rest ih =>
    obtain ⟨k', v'⟩ := p
    have h : k' ≠ k := fun he => hk (by simp [keysOf, he])
    rw [List.cons_append, lookupA, if_neg h]
    exact ih (fun hm => hk (List.mem_cons_of_mem _ hm))

theorem lookupA_append_single_ne (d : List (Str × List Str)) (k k' : Str)
    (v : List Str) (hk : k' ≠ k) :
    lookupA (d ++ [(k, v)]) k' = lookupA d k' := by
  induction d with
  | nil => simp [lookupA, Ne.symm hk]
  | cons p rest ih =>
    obtain ⟨k0, v0⟩ := p
    by_cases h : k0 = k'
    · rw [List.cons_append, lookupA, if_pos h, lookupA, if_pos h]
    · rw [List.cons_append, lookupA, if_neg h, lookupA, if_neg h]
      exact ih

theorem keysOf_append_single (d : List (Str × List Str)) (k : Str)
    (v : List Str) : keysOf (d ++ [(k, v)]) = keysOf d ++ [k] := by
  simp [keysOf]

theorem keysOf_bumpVal (d : List (Str × List Str)) (k : Str) (v : Str) :
    keysOf (bumpVal d k v) =
      if k ∈ keysOf d then keysOf d else keysOf d ++ [k] := by
  rw [bumpVal]
  cases hl : lookupA d k with
  | none =>
    rw [if_neg ((lookupA_eq_none d k).mp hl), keysOf_append_single]
  | some vs =>
    have hk : k ∈ keysOf d := by
      by_contra hc
      rw [(lookupA_eq_none d k).mpr hc] at hl
      exact Option.noConfusion hl
    rw [if_pos hk, keysOf_updateA]

theorem nodup_keysOf_bumpVal (d : List (Str × List Str)) (k : Str) (v : Str)
    (h : (keysOf d).Nodup) : (keysOf (bumpVal d k v)).Nodup := by
  rw [keysOf_bumpVal]
  by_cases hk : k ∈ keysOf d
  · rwa [if_pos hk]
  · rw [if_neg hk]
    simp [List.nodup_append, h, hk]

theorem lookupA_bumpVal_self (d : List (Str × List Str)) (k : Str) (v : Str) :
    lookupA (bumpVal d k v) k = some (((lookupA d k).getD []) ++ [v]) := by
  rw [bumpVal]
  cases hl : lookupA d k with
  | none =>
    rw [lookupA_append_single_self d k [v] ((lookupA_eq_none d k).mp hl)]
    simp
  | some vs =>
    have hk : k ∈ keysOf d := by
      by_contra hc
      rw [(lookupA_eq_none d k).mpr hc] at hl
      exact Option.noConfusion hl
    rw [lookupA_updateA_self d k _ hk]
    simp

theorem lookupA_bumpVal_ne (d : List (Str × List Str)) (k k' : Str) (v : Str)
    (hk : k' ≠ k) : lookupA (bumpVal d k v) k' = lookupA d k' := by
  rw [bumpVal]
  cases hl : lookupA d k with
  | none => exact lookupA_append_single_ne d k k' [v] hk
  | some vs => exact lookupA_updateA_ne d k k' _ hk

theorem keysOf_insertGroup (d : List (Str × List Str)) (sid : Str) :
    keysOf (insertGroup d sid) =
      if gid sid ∈ keysOf d then keysOf d else keysOf d ++ [gid sid] := by
  rw [insertGroup]
  cases hl : lookupA d (gid sid) with
  | none =>
    rw [if_neg ((lookupA_eq_none d _).mp hl), keysOf_append_single]
  | some sids =>
    have hk : gid sid ∈ keysOf d := by
      by_contra hc
      rw [(lookupA_eq_none d _).mpr hc] at hl
      exact Option.noConfusion hl
    rw [if_pos hk]
    dsimp only
    by_cases hm : sid ∈ sids
    · rw [if_pos hm]
    · rw [if_neg hm, keysOf_updateA]

theorem nodup_keysOf_insertGroup (d : List (Str × List Str)) (sid : Str)
    (h : (keysOf d).Nodup) : (keysOf (insertGroup d sid)).Nodup := by
  rw [keysOf_insertGroup]
  by_cases hk : gid sid ∈ keysOf d
  · rwa [if_pos hk]
  · rw [if_neg hk]
    simp [List.nodup_append, h, hk]

theorem lookupA_insertGroup_none (d : List (Str × List Str)) (sid : Str)
    (hl : lookupA d (gid sid) = none) :
    lookupA (insertGroup d sid) (gid sid) = some [sid] := by
  rw [insertGroup, hl]
  exact lookupA_append_single_self d _ _ ((lookupA_eq_none d _).mp hl)

theorem lookupA_insertGroup_some (d : List (Str × List Str)) (sid : Str)
    (sids : List Str) (hl : lookupA d (gid sid) = some sids) :
    lookupA (insertGroup d sid) (gid sid) =
      some (if sid ∈ sids then sids else sids ++ [sid]) := by
  rw [insertGroup, hl]
  dsimp only
  have hk : gid sid ∈ keysOf d := by
    by_contra hc
    rw [(lookupA_eq_none d _).mpr hc] at hl
    exact Option.noConfusion hl
  by_cases hm : sid ∈ sids
  · rw [if_pos hm, if_pos hm, hl]
  · rw [if_neg hm, if_neg hm]
    exact lookupA_updateA_self d _ _ hk

theorem lookupA_insertGroup_ne (d : List (Str × List Str)) (sid : Str)
    (g' : Str) (hg : g' ≠ gid sid) :
    lookupA (insertGroup d sid) g' = lookupA d g' := by
  rw [insertGroup]
  cases hl : lookupA d (gid sid) with
  | none => exact lookupA_append_single_ne d _ g' _ hg
  | some sids =>
    dsimp only
    by_cases hm : sid ∈ sids
    · rw [if_pos hm]
    · rw [if_neg hm]
      exact lookupA_updateA_ne d _ g' _ hg

theorem groupDict_fold_char :
    ∀ (l : List Str) (d : List (Str × List Str)) (prev : List Str),
    (keysOf d).Nodup →
    (∀ g sids, lookupA d g = some sids →
      sids.Nodup ∧ ∀ x, (x ∈ sids ↔ x ∈ prev ∧ gid x = g)) →
    (∀ g, lookupA d g = none → ∀ x ∈ prev, gid x ≠ g) →
    (keysOf (l.foldl insertGroup d)).Nodup ∧
    (∀ g sids, lookupA (l.foldl insertGroup d) g = some sids →
      sids.Nodup ∧ ∀ x, (x ∈ sids ↔ x ∈ prev ++ l ∧ gid x = g)) ∧
    (∀ g, lookupA (l.foldl insertGroup d) g = none →
      ∀ x ∈ prev ++ l, gid x ≠ g) := by
  intro l
  induction l with
  | nil =>
    intro d prev hnd h1 h2
    simp only [List.foldl_nil, List.append_nil]
    exact ⟨hnd, h1, h2⟩
  | cons a l ih =>
    intro d prev hnd h1 h2
    have key : ∀ g, g = gid a → lookupA (insertGroup d a) g ≠ none := by
      intro g hg hnone
      subst hg
      cases hl : lookupA d (gid a) with
      | none => rw [lookupA_insertGroup_none d a hl] at hnone; exact Option.noConfusion hnone
      | some sids => rw [lookupA_insertGroup_some d a sids hl] at hnone; exact Option.noConfusion hnone
    have step1 : ∀ g sids, lookupA (insertGroup d a) g = some sids →
        sids.Nodup ∧ ∀ x, (x ∈ sids ↔ x ∈ prev ++ [a] ∧ gid x = g) := by
      intro g sids' hlook
      by_cases hg : g = gid a
      · subst hg
        cases hl : lookupA d (gid a) with
        | none =>
          rw [lookupA_insertGroup_none d a hl] at hlook
          injection hlook with hlook
          subst hlook
          refine ⟨List.nodup_singleton a, fun x => ?_⟩
          simp only [List.mem_singleton, List.mem_append]
          constructor
          · rintro rfl
            exact ⟨Or.inr rfl, rfl⟩
          · rintro ⟨hx | hx, hgx⟩
            · exact absurd hgx (h2 _ hl x hx)
            · simpa using hx
        | some sids =>
          rw [lookupA_insertGroup_some d a sids hl] at hlook
          injection hlook with hlook
          subst hlook
          obtain ⟨hsnd, hschar⟩ := h1 _ _ hl
          by_cases hm : a ∈ sids
          · rw [if_pos hm]
            refine ⟨hsnd, fun x => ?_⟩
            rw [hschar x]
            simp only [List.mem_append, List.mem_singleton]
            constructor
            · rintro ⟨hx, hgx⟩
              exact ⟨Or.inl hx, hgx⟩
            · rintro ⟨hx | rfl, hgx⟩
              · exact ⟨hx, hgx⟩
              · exact ⟨((hschar x).mp hm).1, hgx⟩
          · rw [if_neg hm]
            constructor
            · simp [List.nodup_append, List.disjoint_singleton, hsnd, hm]
            · intro x
              simp only [List.mem_append, List.mem_singleton]
              rw [hschar x]
              constructor
              · rintro (⟨hx, hgx⟩ | rfl)
                · exact ⟨Or.inl hx, hgx⟩
                · exact ⟨Or.inr rfl, rfl⟩
              · rintro ⟨hx | rfl, hgx⟩
                · exact Or.inl ⟨hx, hgx⟩
                · exact Or.inr rfl
      · rw [lookupA_insertGroup_ne d a g hg] at hlook
        obtain ⟨hsnd, hschar⟩ := h1 _ _ hlook
        refine ⟨hsnd, fun x => ?_⟩
        rw [hschar x]
        simp only [List.mem_append, List.mem_singleton]
        constructor
        · rintro ⟨hx, hgx⟩
          exact ⟨Or.inl hx, hgx⟩
        · rintro ⟨hx | rfl, hgx⟩
          · exact ⟨hx, hgx⟩
          · exact absurd hgx.symm (Ne.symm hg ∘ Eq.symm)
    have step2 : ∀ g, lookupA (insertGroup d a) g = none →
        ∀ x ∈ prev ++ [a], gid x ≠ g := by
      intro g hlook x hx
      have hg : g ≠ gid a := fun he => key g he hlook
      rw [lookupA_insertGroup_ne d a g hg] at hlook
      rcases List.mem_append.mp hx with hx | hx
      · exact h2 _ hlook x hx
      · rw [List.mem_singleton.mp hx]
        exact fun he => hg he.symm
    have := ih (insertGroup d a) (prev ++ [a])
      (nodup_keysOf_insertGroup d a hnd) step1 step2
    simpa [List.append_assoc] using this

theorem groupDict_keys_nodup (names : List Str) :
    (keysOf (groupDict names)).Nodup :=
  (groupDict_fold_char (names.map sampleId) [] [] List.nodup_nil
    (fun g sids h => by simp [lookupA] at h) (fun g h x hx => by simp at hx)).1

theorem groupDict_some_char (names : List Str) (g : Str) (sids : List Str)
    (h : lookupA (groupDict names) g = some sids) :
    sids.Nodup ∧ ∀ x, (x ∈ sids ↔ x ∈ names.map sampleId ∧ gid x = g) := by
  have := (groupDict_fold_char (names.map sampleId) [] [] List.nodup_nil
    (fun g sids h => by simp [lookupA] at h) (fun g h x hx => by simp at hx)).2.1
  simpa using this g sids h

theorem groupDict_none_char (names : List Str) (g : Str)
    (h : lookupA (groupDict names) g = none) :
    ∀ x ∈ names.map sampleId, gid x ≠ g := by
  have h3 := (groupDict_fold_char (names.map sampleId) [] [] List.nodup_nil
    (fun g sids h => by simp [lookupA] at h) (fun g h x hx => by simp at hx)).2.2
  intro x hx
  exact h3 g h x hx

theorem mem_foldl_passfilter (mr : Int) :
    ∀ (entries : List (Str × List Str)) (acc : List Str) (x : Str),
    (x ∈ entries.foldl
        (fun acc p => if mr ≤ (p.2.length : Int) then acc ++ p.2 else acc) acc ↔
      x ∈ acc ∨ ∃ p ∈ entries, mr ≤ (p.2.length : Int) ∧ x ∈ p.2) := by
  intro entries
  induction entries with
  | nil => simp
  | cons p rest ih =>
    intro acc x
    simp only [List.foldl_cons]
    by_cases hc : mr ≤ (p.2.length : Int)
    · rw [if_pos hc, ih]
      simp only [List.mem_append, List.mem_cons]
      constructor
      · rintro ((hx | hx) | ⟨q, hq, hql, hqm⟩)
        · exact Or.inl hx
        · exact Or.inr ⟨p, Or.inl rfl, hc, hx⟩
        · exact Or.inr ⟨q, Or.inr hq, hql, hqm⟩
      · rintro (hx | ⟨q, hq | hq, hql, hqm⟩)
        · exact Or.inl (Or.inl hx)
        · exact Or.inl (Or.inr (hq ▸ hqm))
        · exact Or.inr ⟨q, hq, hql, hqm⟩
    · rw [if_neg hc, ih]
      simp only [List.mem_cons]
      constructor
      · rintro (hx | ⟨q, hq, hql, hqm⟩)
        · exact Or.inl hx
        · exact Or.inr ⟨q, Or.inr hq, hql, hqm⟩
      · rintro (hx | ⟨q, hq | hq, hql, hqm⟩)
        · exact Or.inl hx
        · exact absurd (hq ▸ hql) hc
        · exact Or.inr ⟨q, hq, hql, hqm⟩

theorem mem_passList_iff (mr : Int) (names : List Str) (sid : Str) :
    sid ∈ passList mr names ↔
      sid ∈ names.map sampleId ∧
        mr ≤ ((((names.map sampleId).filter
          (fun s => decide (gid s = gid sid))).dedup.length : Int)) := by
  rw [passList, mem_foldl_passfilter]
  simp only [List.not_mem_nil, false_or]
  constructor
  · rintro ⟨p, hp, hlen, hmem⟩
    have hl : lookupA (groupDict names) p.1 = some p.2 :=
      mem_lookupA _ p.1 p.2 (groupDict_keys_nodup names) (by simpa using hp)
    obtain ⟨hnd, hchar⟩ := groupDict_some_char names p.1 p.2 hl
    have hsid := (hchar sid).mp hmem
    refine ⟨hsid.1, ?_⟩
    have hperm : List.Perm p.2
        (((names.map sampleId).filter (fun s => decide (gid s = gid sid))).dedup) := by
      apply (List.perm_ext_iff_of_nodup hnd (List.nodup_dedup _)).mpr
      intro x
      rw [hchar x, List.mem_dedup, List.mem_filter]
      simp only [decide_eq_true_eq, hsid.2]
    rw [← hperm.length_eq]
    exact hlen
  · rintro ⟨hmem, hlen⟩
    cases hl : lookupA (groupDict names) (gid sid) with
    | none => exact absurd rfl (groupDict_none_char names _ hl sid hmem)
    | some sids =>
      obtain ⟨hnd, hchar⟩ := groupDict_some_char names _ sids hl
      have hsmem : sid ∈ sids := (hchar sid).mpr ⟨hmem, rfl⟩
      refine ⟨(gid sid, sids), lookupA_mem _ _ _ hl, ?_, hsmem⟩
      have hperm : List.Perm sids
          (((names.map sampleId).filter (fun s => decide (gid s = gid sid))).dedup) := by
        apply (List.perm_ext_iff_of_nodup hnd (List.nodup_dedup _)).mpr
        intro x
        rw [hchar x, List.mem_dedup, List.mem_filter]
        simp only [decide_eq_true_eq]
      rw [hperm.length_eq]
      exact hlen

theorem mem_map_of_mem_passList {mr : Int} {names : List Str} {sid : Str}
    (h : sid ∈ passList mr names) : sid ∈ names.map sampleId :=
  ((mem_passList_iff mr names sid).mp h).1

/-!
## Lemmas: the accumulation loop
-/

theorem mem_map_sampleId_iff (names : List Str) (s : Str) :
    s ∈ names.map sampleId ↔
      ∃ idx ∈ List.range names.length, sampleId (names.getD idx []) = s := by
  rw [List.mem_map]
  constructor
  · rintro ⟨n, hn, rfl⟩
    obtain ⟨i, hi, rfl⟩ := List.mem_iff_getElem.mp hn
    refine ⟨i, List.mem_range.mpr hi, ?_⟩
    rw [List.getD_eq_getElem?_getD, List.getElem?_eq_getElem hi]
    rfl
  · rintro ⟨idx, hidx, rfl⟩
    have hlt := List.mem_range.mp hidx
    refine ⟨names.getD idx [], ?_, rfl⟩
    rw [List.getD_eq_getElem?_getD, List.getElem?_eq_getElem hlt]
    exact List.getElem_mem hlt

theorem accumLoop_none_iff (mr : Int) (r : RowT) :
    ∀ (idxs : List Nat) (d : Dicts),
    (accumLoop mr r d idxs = none ↔
      ∃ idx ∈ idxs, sampleId (r.names.getD idx []) ∈ passList mr r.names ∧
        (r.fcs.length ≤ idx ∨ r.qvals.length ≤ idx ∨ r.pvals.length ≤ idx ∨
         r.starts.length ≤ idx ∨ r.ends.length ≤ idx)) := by
  intro idxs
  induction idxs with
  | nil => intro d; simp [accumLoop]
  | cons idx rest ih =>
    intro d
    simp only [accumLoop]
    by_cases hpass : sampleId (r.names.getD idx []) ∈ passList mr r.names
    · rw [if_pos hpass]
      cases hfc : r.fcs.get? idx with
      | none =>
        dsimp only
        constructor
        · intro _
          exact ⟨idx, List.mem_cons_self _ _, hpass,
            Or.inl (List.get?_eq_none.mp hfc)⟩
        · intro _
          rfl
      | some fc =>
        cases hqv : r.qvals.get? idx with
        | none =>
          dsimp only
          constructor
          · intro _
            exact ⟨idx, List.mem_cons_self _ _, hpass,
              Or.inr (Or.inl (List.get?_eq_none.mp hqv))⟩
          · intro _
            rfl
        | some qv =>
          cases hpv : r.pvals.get? idx with
          | none =>
            dsimp only
            constructor
            · intro _
              exact ⟨idx, List.mem_cons_self _ _, hpass,
                Or.inr (Or.inr (Or.inl (List.get?_eq_none.mp hpv)))⟩
            · intro _
              rfl
          | some pv =>
            cases hst : r.starts.get? idx with
            | none =>
              dsimp only
              constructor
              · intro _
                exact ⟨idx, List.mem_cons_self _ _, hpass,
                  Or.inr (Or.inr (Or.inr (Or.inl (List.get?_eq_none.mp hst))))⟩
              · intro _
                rfl
            | some st =>
              cases hen : r.ends.get? idx with
              | none =>
                dsimp only
                constructor
                · intro _
                  exact ⟨idx, List.mem_cons_self _ _, hpass,
                    Or.inr (Or.inr (Or.inr (Or.inr (List.get?_eq_none.mp hen))))⟩
                · intro _
                  rfl
              | some en =>
                dsimp only
                rw [ih]
                have hlt1 := (List.get?_eq_some.mp hfc).1
                have hlt2 := (List.get?_eq_some.mp hqv).1
                have hlt3 := (List.get?_eq_some.mp hpv).1
                have hlt4 := (List.get?_eq_some.mp hst).1
                have hlt5 := (List.get?_eq_some.mp hen).1
                constructor
                · rintro ⟨i, hi, hp, hlen⟩
                  exact ⟨i, List.mem_cons_of_mem _ hi, hp, hlen⟩
                · rintro ⟨i, hi, hp, hlen⟩
                  rcases List.mem_cons.mp hi with rfl | hi
                  · rcases hlen with h | h | h | h | h <;> omega
                  · exact ⟨i, hi, hp, hlen⟩
    · rw [if_neg hpass, ih]
      constructor
      · rintro ⟨i, hi, hp, hlen⟩
        exact ⟨i, List.mem_cons_of_mem _ hi, hp, hlen⟩
      · rintro ⟨i, hi, hp, hlen⟩
        rcases List.mem_cons.mp hi with rfl | hi
        · exact absurd hp hpass
        · exact ⟨i, hi, hp, hlen⟩

theorem accumRow_none_iff (mr : Int) (r : RowT) :
    accumRow mr r = none ↔
      ∃ idx, idx < r.names.length ∧
        sampleId (r.names.getD idx []) ∈ passList mr r.names ∧
        (r.fcs.length ≤ idx ∨ r.qvals.length ≤ idx ∨ r.pvals.length ≤ idx ∨
         r.starts.length ≤ idx ∨ r.ends.length ≤ idx) := by
  rw [accumRow, accumLoop_none_iff]
  constructor
  · rintro ⟨idx, hm, h⟩
    exact ⟨idx, List.mem_range.mp hm, h⟩
  · rintro ⟨idx, hm, h⟩
    exact ⟨idx, List.mem_range.mpr hm, h⟩

theorem accumLoop_components (mr : Int) (r : RowT) :
    ∀ (idxs : List Nat) (d d' : Dicts), accumLoop mr r d idxs = some d' →
    accumOne mr r r.fcs d.fc_dict idxs = some d'.fc_dict ∧
    accumOne mr r r.qvals d.qval_dict idxs = some d'.qval_dict ∧
    accumOne mr r r.pvals d.pval_dict idxs = some d'.pval_dict ∧
    accumOne mr r (r.starts.map intToStr) d.start_dict idxs = some d'.start_dict ∧
    accumOne mr r (r.ends.map intToStr) d.end_dict idxs = some d'.end_dict := by
  intro idxs
  induction idxs with
  | nil =>
    intro d d' h
    rw [accumLoop] at h
    injection h with h
    subst h
    simp [accumOne]
  | cons idx rest ih =>
    intro d d' h
    simp only [accumLoop] at h
    simp only [accumOne]
    by_cases hpass : sampleId (r.names.getD idx []) ∈ passList mr r.names
    · simp only [if_pos hpass] at h ⊢
      cases hfc : r.fcs.get? idx with
      | none => rw [hfc] at h; exact absurd h (by simp)
      | some fc =>
        cases hqv : r.qvals.get? idx with
        | none => rw [hfc, hqv] at h; exact absurd h (by simp)
        | some qv =>
          cases hpv : r.pvals.get? idx with
          | none => rw [hfc, hqv, hpv] at h; exact absurd h (by simp)
          | some pv =>
            cases hst : r.starts.get? idx with
            | none => rw [hfc, hqv, hpv, hst] at h; exact absurd h (by simp)
            | some st =>
              cases hen : r.ends.get? idx with
              | none => rw [hfc, hqv, hpv, hst, hen] at h; exact absurd h (by simp)
              | some en =>
                rw [hfc, hqv, hpv, hst, hen] at h
                dsimp only at h
                have hmapst : (r.starts.map intToStr).get? idx =
                    some (intToStr st) := by
                  rw [List.get?_eq_getElem?, List.getElem?_map,
                    ← List.get?_eq_getElem?, hst]
                  rfl
                have hmapen : (r.ends.map intToStr).get? idx =
                    some (intToStr en) := by
                  rw [List.get?_eq_getElem?, List.getElem?_map,
                    ← List.get?_eq_getElem?, hen]
                  rfl
                rw [hmapst, hmapen]
                dsimp only [Option.getD_some]
                have hcomp := ih _ _ h
                dsimp only at hcomp
                exact hcomp
    · simp only [if_neg hpass] at h ⊢
      exact ih _ _ h

theorem accumOne_lookup (mr : Int) (r : RowT) (vals : List Str)
    (hsome : ∀ idx, (r.fcs.get? idx).isSome → (r.qvals.get? idx).isSome →
      (r.pvals.get? idx).isSome → (r.starts.get? idx).isSome →
      (r.ends.get? idx).isSome → (vals.get? idx).isSome) :
    ∀ (idxs : List Nat) (dd dd' : List (Str × List Str)),
    accumOne mr r vals dd idxs = some dd' →
    ∀ s, lookupA dd' s =
      if s ∈ passList mr r.names ∧
          (∃ idx ∈ idxs, sampleId (r.names.getD idx []) = s) then
        some (((lookupA dd s).getD []) ++ valsAt vals r.names s idxs)
      else lookupA dd s := by
  intro idxs
  induction idxs with
  | nil =>
    intro dd dd' h s
    rw [accumOne] at h
    injection h with h
    subst h
    simp
  | cons idx rest ih =>
    intro dd dd' h s
    simp only [accumOne] at h
    by_cases hpass : sampleId (r.names.getD idx []) ∈ passList mr r.names
    · simp only [if_pos hpass] at h
      cases hfc : r.fcs.get? idx with
      | none => rw [hfc] at h; exact absurd h (by simp)
      | some fc =>
        cases hqv : r.qvals.get? idx with
        | none => rw [hfc, hqv] at h; exact absurd h (by simp)
        | some qv =>
          cases hpv : r.pvals.get? idx with
          | none => rw [hfc, hqv, hpv] at h; exact absurd h (by simp)
          | some pv =>
            cases hst : r.starts.get? idx with
            | none => rw [hfc, hqv, hpv, hst] at h; exact absurd h (by simp)
            | some st =>
              cases hen : r.ends.get? idx with
              | none => rw [hfc, hqv, hpv, hst, hen] at h; exact absurd h (by simp)
              | some en =>
                rw [hfc, hqv, hpv, hst, hen] at h
                dsimp only at h
                obtain ⟨v, hv⟩ := Option.isSome_iff_exists.mp
                  (hsome idx (by rw [hfc]; rfl) (by rw [hqv]; rfl)
                    (by rw [hpv]; rfl) (by rw [hst]; rfl) (by rw [hen]; rfl))
                rw [hv] at h
                dsimp only [Option.getD_some] at h
                have hlk := ih _ _ h s
                by_cases hs : sampleId (r.names.getD idx []) = s
                · subst hs
                  have hf : (fun i => if sampleId (r.names.getD i []) =
                        sampleId (r.names.getD idx []) then vals.get? i
                        else none) idx = some v := by
                    show (if sampleId (r.names.getD idx []) =
                      sampleId (r.names.getD idx []) then vals.get? idx
                      else none) = some v
                    rw [if_pos rfl, hv]
                  have hvals : valsAt vals r.names (sampleId (r.names.getD idx []))
                      (idx :: rest) =
                      v :: valsAt vals r.names (sampleId (r.names.getD idx [])) rest := by
                    simp only [valsAt]
                    exact @List.filterMap_cons_some Nat Str
                      (fun i => if sampleId (r.names.getD i []) =
                        sampleId (r.names.getD idx []) then vals.get? i
                        else none) idx rest v hf
                  rw [if_pos ⟨hpass, ⟨idx, List.mem_cons_self _ _, rfl⟩⟩, hvals]
                  by_cases hrest : ∃ idx' ∈ rest,
                      sampleId (r.names.getD idx' []) = sampleId (r.names.getD idx [])
                  · rw [if_pos ⟨hpass, hrest⟩, lookupA_bumpVal_self] at hlk
                    rw [hlk]
                    simp
                  · rw [if_neg (fun hc => hrest hc.2), lookupA_bumpVal_self] at hlk
                    rw [hlk]
                    have hnil : valsAt vals r.names
                        (sampleId (r.names.getD idx [])) rest = [] := by
                      simp only [valsAt]
                      rw [List.filterMap_eq_nil_iff]
                      intro a ha
                      rw [if_neg (fun hc => hrest ⟨a, ha, hc⟩)]
                    rw [hnil]
                · have hf : (fun i => if sampleId (r.names.getD i []) = s
                        then vals.get? i else none) idx = none := by
                    show (if sampleId (r.names.getD idx []) = s
                      then vals.get? idx else none) = none
                    rw [if_neg hs]
                  have hvals : valsAt vals r.names s (idx :: rest) =
                      valsAt vals r.names s rest := by
                    simp only [valsAt]
                    exact @List.filterMap_cons_none Nat Str
                      (fun i => if sampleId (r.names.getD i []) = s
                        then vals.get? i else none) idx rest hf
                  have hbump : lookupA
                      (bumpVal dd (sampleId (r.names.getD idx [])) v) s =
                      lookupA dd s :=
                    lookupA_bumpVal_ne _ _ _ _ (fun he => hs he.symm)
                  rw [hbump] at hlk
                  rw [hvals]
                  by_cases hrest : s ∈ passList mr r.names ∧
                      ∃ idx' ∈ rest, sampleId (r.names.getD idx' []) = s
                  · rw [if_pos hrest] at hlk
                    obtain ⟨i, hi, he⟩ := hrest.2
                    rw [if_pos ⟨hrest.1, ⟨i, List.mem_cons_of_mem _ hi, he⟩⟩]
                    exact hlk
                  · rw [if_neg hrest] at hlk
                    rw [if_neg (fun hc => hrest ⟨hc.1, by
                      rcases hc.2 with ⟨i, hi, he⟩
                      rcases List.mem_cons.mp hi with rfl | hi
                      · exact absurd he hs
                      · exact ⟨i, hi, he⟩⟩)]
                    exact hlk
    · simp only [if_neg hpass] at h
      have hlk := ih _ _ h s
      by_cases hs : sampleId (r.names.getD idx []) = s
      · subst hs
        rw [if_neg (fun hc => hpass hc.1)] at hlk
        rw [if_neg (fun hc => hpass hc.1)]
        exact hlk
      · have hf : (fun i => if sampleId (r.names.getD i []) = s
            then vals.get? i else none) idx = none := by
          show (if sampleId (r.names.getD idx []) = s
            then vals.get? idx else none) = none
          rw [if_neg hs]
        have hvals : valsAt vals r.names s (idx :: rest) =
            valsAt vals r.names s rest := by
          simp only [valsAt]
          exact @List.filterMap_cons_none Nat Str
            (fun i => if sampleId (r.names.getD i []) = s
              then vals.get? i else none) idx rest hf
        rw [hvals]
        by_cases hrest : s ∈ passList mr r.names ∧
            ∃ idx' ∈ rest, sampleId (r.names.getD idx' []) = s
        · rw [if_pos hrest] at hlk
          obtain ⟨i, hi, he⟩ := hrest.2
          rw [if_pos ⟨hrest.1, ⟨i, List.mem_cons_of_mem _ hi, he⟩⟩]
          exact hlk
        · rw [if_neg hrest] at hlk
          rw [if_neg (fun hc => hrest ⟨hc.1, by
            rcases hc.2 with ⟨i, hi, he⟩
            rcases List.mem_cons.mp hi with rfl | hi
            · exact absurd he hs
            · exact ⟨i, hi, he⟩⟩)]
          exact hlk

theorem accumOne_keys_nodup (mr : Int) (r : RowT) (vals : List Str) :
    ∀ (idxs : List Nat) (dd dd' : List (Str × List Str)),
    accumOne mr r vals dd idxs = some dd' → (keysOf dd).Nodup →
    (keysOf dd').Nodup := by
  intro idxs
  induction idxs with
  | nil =>
    intro dd dd' h hnd
    rw [accumOne] at h
    injection h with h
    subst h
    exact hnd
  | cons idx rest ih =>
    intro dd dd' h hnd
    simp only [accumOne] at h
    by_cases hpass : sampleId (r.names.getD idx []) ∈ passList mr r.names
    · simp only [if_pos hpass] at h
      cases hfc : r.fcs.get? idx with
      | none => rw [hfc] at h; exact absurd h (by simp)
      | some fc =>
        cases hqv : r.qvals.get? idx with
        | none => rw [hfc, hqv] at h; exact absurd h (by simp)
        | some qv =>
          cases hpv : r.pvals.get? idx with
          | none => rw [hfc, hqv, hpv] at h; exact absurd h (by simp)
          | some pv =>
            cases hst : r.starts.get? idx with
            | none => rw [hfc, hqv, hpv, hst] at h; exact absurd h (by simp)
            | some st =>
              cases hen : r.ends.get? idx with
              | none => rw [hfc, hqv, hpv, hst, hen] at h; exact absurd h (by simp)
              | some en =>
                rw [hfc, hqv, hpv, hst, hen] at h
                dsimp only at h
                exact ih _ _ h (nodup_keysOf_bumpVal _ _ _ hnd)
    · simp only [if_neg hpass] at h
      exact ih _ _ h hnd

theorem accumOne_empty_lookup (mr : Int) (r : RowT) (vals : List Str)
    (hsome : ∀ idx, (r.fcs.get? idx).isSome → (r.qvals.get? idx).isSome →
      (r.pvals.get? idx).isSome → (r.starts.get? idx).isSome →
      (r.ends.get? idx).isSome → (vals.get? idx).isSome)
    (dd' : List (Str × List Str))
    (h : accumOne mr r vals [] (List.range r.names.length) = some dd') (s : Str) :
    lookupA dd' s =
      if s ∈ passList mr r.names then
        some (valsAt vals r.names s (List.range r.names.length))
      else none := by
  have hlk := accumOne_lookup mr r vals hsome _ _ _ h s
  rw [hlk]
  by_cases hp : s ∈ passList mr r.names
  · have hex : ∃ idx ∈ List.range r.names.length,
        sampleId (r.names.getD idx []) = s :=
      (mem_map_sampleId_iff r.names s).mp (mem_map_of_mem_passList hp)
    rw [if_pos ⟨hp, hex⟩, if_pos hp]
    rfl
  · rw [if_neg (fun hc => hp hc.1), if_neg hp]
    rfl

theorem accumRow_lookup (mr : Int) (r : RowT) (d : Dicts)
    (h : accumRow mr r = some d) (s : Str) :
    (lookupA d.fc_dict s = if s ∈ passList mr r.names then
      some (valsAt r.fcs r.names s (List.range r.names.length)) else none) ∧
    (lookupA d.qval_dict s = if s ∈ passList mr r.names then
      some (valsAt r.qvals r.names s (List.range r.names.length)) else none) ∧
    (lookupA d.pval_dict s = if s ∈ passList mr r.names then
      some (valsAt r.pvals r.names s (List.range r.names.length)) else none) ∧
    (lookupA d.start_dict s = if s ∈ passList mr r.names then
      some (valsAt (r.starts.map intToStr) r.names s
        (List.range r.names.length)) else none) ∧
    (lookupA d.end_dict s = if s ∈ passList mr r.names then
      some (valsAt (r.ends.map intToStr) r.names s
        (List.range r.names.length)) else none) := by
  rw [accumRow] at h
  have hcomp := accumLoop_components mr r _ _ _ h
  dsimp only at hcomp
  refine ⟨accumOne_empty_lookup mr r r.fcs (fun _ h1 _ _ _ _ => h1) _ hcomp.1 s,
    accumOne_empty_lookup mr r r.qvals (fun _ _ h2 _ _ _ => h2) _ hcomp.2.1 s,
    accumOne_empty_lookup mr r r.pvals (fun _ _ _ h3 _ _ => h3) _ hcomp.2.2.1 s,
    accumOne_empty_lookup mr r (r.starts.map intToStr) ?_ _ hcomp.2.2.2.1 s,
    accumOne_empty_lookup mr r (r.ends.map intToStr) ?_ _ hcomp.2.2.2.2 s⟩
  · intro idx _ _ _ h4 _
    rw [List.get?_eq_getElem?] at h4
    rw [List.get?_eq_getElem?, List.getElem?_map]
    obtain ⟨a, ha⟩ := Option.isSome_iff_exists.mp h4
    rw [ha]
    rfl
  · intro idx _ _ _ _ h5
    rw [List.get?_eq_getElem?] at h5
    rw [List.get?_eq_getElem?, List.getElem?_map]
    obtain ⟨a, ha⟩ := Option.isSome_iff_exists.mp h5
    rw [ha]
    rfl

theorem accumRow_fc_keys_nodup (mr : Int) (r : RowT) (d : Dicts)
    (h : accumRow mr r = some d) : (keysOf d.fc_dict).Nodup := by
  rw [accumRow] at h
  have hcomp := (accumLoop_components mr r _ _ _ h).1
  dsimp only at hcomp
  exact accumOne_keys_nodup mr r r.fcs _ _ _ hcomp List.nodup_nil

theorem accumRow_fc_keys_mem (mr : Int) (r : RowT) (d : Dicts)
    (h : accumRow mr r = some d) (s : Str) :
    s ∈ keysOf d.fc_dict ↔ s ∈ passList mr r.names := by
  have hlk := (accumRow_lookup mr r d h s).1
  constructor
  · intro hm
    by_contra hp
    rw [if_neg hp] at hlk
    exact ((lookupA_eq_none d.fc_dict s).mp hlk) hm
  · intro hp
    rw [if_pos hp] at hlk
    by_contra hm
    rw [(lookupA_eq_none d.fc_dict s).mpr hm] at hlk
    exact Option.noConfusion hlk

theorem rowSamples_mem (d : Dicts) (s : Str) :
    s ∈ rowSamples d ↔ s ∈ keysOf d.fc_dict := by
  rw [rowSamples, keysOf]
  exact List.mem_insertionSort _

theorem rowSamples_nodup (d : Dicts) (h : (keysOf d.fc_dict).Nodup) :
    (rowSamples d).Nodup :=
  (List.perm_insertionSort _ _).nodup_iff.mpr h

theorem rowSamples_sorted (d : Dicts) :
    List.Sorted (· ≤ ·) (rowSamples d) :=
  List.sorted_insertionSort _ _

/-!
## Lemmas: sample discovery
-/

theorem mem_setInsert (s : List Str) (x y : Str) :
    y ∈ setInsert s x ↔ y ∈ s ∨ y = x := by
  rw [setInsert]
  by_cases h : x ∈ s
  · rw [if_pos h]
    constructor
    · exact Or.inl
    · rintro (hy | rfl)
      · exact hy
      · exact h
  · rw [if_neg h]
    simp

theorem nodup_setInsert (s : List Str) (x : Str) (h : s.Nodup) :
    (setInsert s x).Nodup := by
  rw [setInsert]
  by_cases hm : x ∈ s
  · rwa [if_pos hm]
  · rw [if_neg hm]
    simp [List.nodup_append, h, hm]

theorem mem_setUpdate (xs : List Str) :
    ∀ (s : List Str) (y : Str), y ∈ setUpdate s xs ↔ y ∈ s ∨ y ∈ xs := by
  induction xs with
  | nil => intro s y; simp [setUpdate]
  | cons x xs ih =>
    intro s y
    rw [setUpdate, List.foldl_cons]
    have := ih (setInsert s x) y
    rw [setUpdate] at this
    rw [this, mem_setInsert]
    simp [List.mem_cons]
    tauto

theorem nodup_setUpdate (xs : List Str) :
    ∀ (s : List Str), s.Nodup → (setUpdate s xs).Nodup := by
  induction xs with
  | nil => intro s h; simpa [setUpdate] using h
  | cons x xs ih =>
    intro s h
    rw [setUpdate, List.foldl_cons]
    have := ih (setInsert s x) (nodup_setInsert s x h)
    rwa [setUpdate] at this

theorem mem_allSampleNames_aux :
    ∀ (rows : List RowT) (s : List Str) (y : Str),
    (y ∈ rows.foldl (fun s r => setUpdate s (r.names.map sampleId)) s ↔
      y ∈ s ∨ ∃ r ∈ rows, ∃ n ∈ r.names, sampleId n = y) := by
  intro rows
  induction rows with
  | nil => intro s y; simp
  | cons r rows ih =>
    intro s y
    rw [List.foldl_cons, ih, mem_setUpdate]
    simp only [List.mem_map, List.mem_cons]
    constructor
    · rintro ((hy | ⟨n, hn, he⟩) | ⟨q, hq, n, hn, he⟩)
      · exact Or.inl hy
      · exact Or.inr ⟨r, Or.inl rfl, n, hn, he⟩
      · exact Or.inr ⟨q, Or.inr hq, n, hn, he⟩
    · rintro (hy | ⟨q, hq | hq, n, hn, he⟩)
      · exact Or.inl (Or.inl hy)
      · exact Or.inl (Or.inr ⟨n, hq ▸ hn, he⟩)
      · exact Or.inr ⟨q, hq, n, hn, he⟩

theorem mem_allSampleNames (rows : List RowT) (y : Str) :
    y ∈ allSampleNames rows ↔ ∃ r ∈ rows, ∃ n ∈ r.names, sampleId n = y := by
  rw [allSampleNames]
  have := mem_allSampleNames_aux rows [] y
  simpa using this

theorem nodup_allSampleNames (rows : List RowT) : (allSampleNames rows).Nodup := by
  rw [allSampleNames]
  have haux : ∀ (rs : List RowT) (s : List Str), s.Nodup →
      (rs.foldl (fun s r => setUpdate s (r.names.map sampleId)) s).Nodup := by
    intro rs
    induction rs with
    | nil => intro s h; simpa using h
    | cons r rs ih =>
      intro s h
      rw [List.foldl_cons]
      exact ih _ (nodup_setUpdate _ s h)
  exact haux rows [] List.nodup_nil

theorem sample_name_list_sorted (rows : List RowT) :
    List.Sorted (· ≤ ·) (sample_name_list rows) :=
  List.sorted_insertionSort _ _

theorem sample_name_list_nodup (rows : List RowT) :
    (sample_name_list rows).Nodup :=
  (List.perm_insertionSort _ _).nodup_iff.mpr (nodup_allSampleNames rows)

theorem mem_sample_name_list (rows : List RowT) (y : Str) :
    y ∈ sample_name_list rows ↔ ∃ r ∈ rows, ∃ n ∈ r.names, sampleId n = y := by
  rw [sample_name_list, List.mem_insertionSort]
  exact mem_allSampleNames rows y

/-!
## Lemmas: output row structure
-/

theorem buildOList_length (univ : List Str) (r : RowT) (total : Nat) (d : Dicts) :
    (buildOList univ r total d).length = 6 + 6 * univ.length := by
  simp only [buildOList, List.length_append, List.length_map, List.length_cons,
    List.length_nil]
  ring

theorem buildOList_get3 (univ : List Str) (r : RowT) (total : Nat) (d : Dicts) :
    (buildOList univ r total d).get? 3 =
      some ("Interval_".toList ++ natToStr (total + 1)) := by
  simp [buildOList]

theorem buildOList_get5 (univ : List Str) (r : RowT) (total : Nat) (d : Dicts) :
    (buildOList univ r total d).get? 5 = some (natToStr (rowSamples d).length) := by
  simp [buildOList]

theorem buildOList_bools (univ : List Str) (r : RowT) (total : Nat) (d : Dicts) :
    ((buildOList univ r total d).drop 6).take univ.length =
      univ.map (fun x => if x ∈ rowSamples d then "TRUE".toList
        else "FALSE".toList) := by
  simp only [buildOList, List.cons_append, List.nil_append, List.drop_succ_cons,
    List.drop_zero, List.append_assoc]
  rw [show univ.length = (univ.map (fun x => if x ∈ rowSamples d then
    "TRUE".toList else "FALSE".toList)).length from (List.length_map _ _).symm]
  exact List.take_left _ _

theorem count_true_bool_list (univ samples : List Str) (hu : univ.Nodup)
    (hs : samples.Nodup) (hsub : ∀ x ∈ samples, x ∈ univ) :
    (univ.map (fun x => if x ∈ samples then "TRUE".toList
      else "FALSE".toList)).count ("TRUE".toList) = samples.length := by
  rw [List.count_eq_countP, List.countP_map]
  have hfun : ((fun s => s == "TRUE".toList) ∘
      (fun x => if x ∈ samples then "TRUE".toList else "FALSE".toList)) =
      fun x => decide (x ∈ samples) := by
    funext x
    simp only [Function.comp]
    by_cases hx : x ∈ samples
    · rw [if_pos hx]
      simp [hx]
    · rw [if_neg hx, decide_eq_false hx]
      decide
  rw [hfun, List.countP_eq_length_filter]
  have hperm : List.Perm (univ.filter (fun x => decide (x ∈ samples))) samples := by
    apply (List.perm_ext_iff_of_nodup (hu.filter _) hs).mpr
    intro a
    simp only [List.mem_filter, decide_eq_true_eq]
    constructor
    · exact fun h => h.2
    · exact fun h => ⟨hsub a h, h⟩
  exact hperm.length_eq

/-!
## Lemmas: the combination-frequency dict
-/

theorem lookupC_eq_none (c : List (List Str × Nat)) (k : List Str) :
    lookupC c k = none ↔ k ∉ c.map Prod.fst := by
  induction c with
  | nil => simp [lookupC]
  | cons p rest ih =>
    obtain ⟨k', n⟩ := p
    by_cases h : k' = k
    · subst h
      simp [lookupC]
    · simp only [lookupC, if_neg h, List.map_cons, List.mem_cons]
      rw [ih]
      simp [Ne.symm h]

theorem bumpComb_keys_nodup (c : List (List Str × Nat)) (k : List Str)
    (h : (c.map Prod.fst).Nodup) : ((bumpComb c k).map Prod.fst).Nodup := by
  rw [bumpComb]
  cases hl : lookupC c k with
  | none =>
    have hk := (lookupC_eq_none c k).mp hl
    simp [List.nodup_append, h, hk]
  | some n =>
    have hkeys : (c.map (fun p => if p.1 = k then (k, n + 1) else p)).map Prod.fst
        = c.map Prod.fst := by
      rw [List.map_map]
      apply List.map_congr_left
      intro p _
      by_cases hp : p.1 = k
      · simp [Function.comp, hp]
      · simp [Function.comp, hp]
    rw [hkeys]
    exact h

theorem map_id_of_no_key (c : List (List Str × Nat)) (k : List Str) (n : Nat)
    (h : ∀ p ∈ c, p.1 ≠ k) :
    c.map (fun p => if p.1 = k then (k, n + 1) else p) = c := by
  induction c with
  | nil => rfl
  | cons p rest ih =>
    rw [List.map_cons, if_neg (h p (List.mem_cons_self _ _)),
      ih (fun q hq => h q (List.mem_cons_of_mem _ hq))]

theorem bumpComb_sum_aux :
    ∀ (c : List (List Str × Nat)) (k : List Str) (n : Nat),
    (c.map Prod.fst).Nodup → lookupC c k = some n →
    ((c.map (fun p => if p.1 = k then (k, n + 1) else p)).map Prod.snd).sum =
      (c.map Prod.snd).sum + 1 := by
  intro c
  induction c with
  | nil =>
    intro k n _ hl
    simp [lookupC] at hl
  | cons p rest ih =>
    intro k n hnd hl
    obtain ⟨k0, m⟩ := p
    simp only [List.map_cons, List.nodup_cons] at hnd
    by_cases h : k0 = k
    · subst h
      rw [lookupC, if_pos rfl] at hl
      injection hl with hl
      subst hl
      have hrest : rest.map (fun p => if p.1 = k0 then (k0, m + 1) else p)
          = rest :=
        map_id_of_no_key rest k0 m
          (fun q hq he => hnd.1 (he ▸ List.mem_map_of_mem Prod.fst hq))
      have hhead : (if ((k0, m) : List Str × Nat).1 = k0 then (k0, m + 1)
          else (k0, m)) = (k0, m + 1) := by simp
      rw [List.map_cons, hhead, hrest]
      simp only [List.map_cons, List.sum_cons]
      omega
    · rw [lookupC, if_neg h] at hl
      have hrec := ih k n hnd.2 hl
      have hhead : (if ((k0, m) : List Str × Nat).1 = k then (k, n + 1)
          else (k0, m)) = (k0, m) := by simp [h]
      rw [List.map_cons, hhead]
      simp only [List.map_cons, List.sum_cons] at hrec ⊢
      omega

theorem bumpComb_sum (c : List (List Str × Nat)) (k : List Str)
    (hnd : (c.map Prod.fst).Nodup) :
    ((bumpComb c k).map Prod.snd).sum = (c.map Prod.snd).sum + 1 := by
  rw [bumpComb]
  cases hl : lookupC c k with
  | none => simp
  | some n => exact bumpComb_sum_aux c k n hnd hl

/-!
## Lemmas: the main loop invariant
-/

theorem stepRow_inv (univ : List Str) (mr : Int) (st : RunState) (r : RowT)
    (hu : univ.Nodup) (hr : ∀ n ∈ r.names, sampleId n ∈ univ)
    (h1 : st.total = st.outLines.length)
    (h2 : (st.combFreq.map Prod.fst).Nodup)
    (h3 : (st.combFreq.map Prod.snd).sum = st.total)
    (h4 : ∀ k line, st.outLines.get? k = some line →
      line.get? 3 = some ("Interval_".toList ++ natToStr (k + 1)))
    (h5 : ∀ line ∈ st.outLines, line.length = 6 + 6 * univ.length)
    (h6 : ∀ line ∈ st.outLines, line.get? 5 =
      some (natToStr (((line.drop 6).take univ.length).count ("TRUE".toList)))) :
    (stepRow univ mr st r).total = (stepRow univ mr st r).outLines.length ∧
    ((stepRow univ mr st r).combFreq.map Prod.fst).Nodup ∧
    ((stepRow univ mr st r).combFreq.map Prod.snd).sum =
      (stepRow univ mr st r).total ∧
    (∀ k line, (stepRow univ mr st r).outLines.get? k = some line →
      line.get? 3 = some ("Interval_".toList ++ natToStr (k + 1))) ∧
    (∀ line ∈ (stepRow univ mr st r).outLines,
      line.length = 6 + 6 * univ.length) ∧
    (∀ line ∈ (stepRow univ mr st r).outLines, line.get? 5 =
      some (natToStr (((line.drop 6).take univ.length).count ("TRUE".toList)))) := by
  rw [stepRow]
  by_cases hab : st.aborted
  · rw [if_pos hab]
    exact ⟨h1, h2, h3, h4, h5, h6⟩
  · rw [if_neg hab]
    cases hacc : accumRow mr r with
    | none => exact ⟨h1, h2, h3, h4, h5, h6⟩
    | some d =>
      by_cases hemp : (rowSamples d).isEmpty
      · dsimp only
        rw [if_pos hemp]
        exact ⟨h1, h2, h3, h4, h5, h6⟩
      · dsimp only
        rw [if_neg hemp]
        have hsub : ∀ x ∈ rowSamples d, x ∈ univ := by
          intro x hx
          have hk := (rowSamples_mem d x).mp hx
          have hp := (accumRow_fc_keys_mem mr r d hacc x).mp hk
          have hm := mem_map_of_mem_passList hp
          obtain ⟨n, hn, rfl⟩ := List.mem_map.mp hm
          exact hr n hn
        have hnd : (rowSamples d).Nodup :=
          rowSamples_nodup d (accumRow_fc_keys_nodup mr r d hacc)
        refine ⟨?_, ?_, ?_, ?_, ?_, ?_⟩
        · simp [h1]
        · exact bumpComb_keys_nodup _ _ h2
        · rw [bumpComb_sum _ _ h2, h3]
        · intro k line hline
          rcases Nat.lt_trichotomy k st.outLines.length with hk | hk | hk
          · rw [List.get?_append hk] at hline
            exact h4 k line hline
          · subst hk
            rw [List.get?_concat_length] at hline
            injection hline with hline
            subst hline
            rw [buildOList_get3, h1]
          · rw [List.get?_eq_none.mpr (by simp; omega)] at hline
            exact Option.noConfusion hline
        · intro line hline
          rcases List.mem_append.mp hline with hm | hm
          · exact h5 line hm
          · rw [List.mem_singleton.mp hm]
            exact buildOList_length univ r st.total d
        · intro line hline
          rcases List.mem_append.mp hline with hm | hm
          · exact h6 line hm
          · rw [List.mem_singleton.mp hm]
            rw [buildOList_get5, buildOList_bools,
              count_true_bool_list univ (rowSamples d) hu hnd hsub]

theorem runFold_inv (univ : List Str) (mr : Int) (hu : univ.Nodup) :
    ∀ (rows : List RowT) (st : RunState),
    (∀ r ∈ rows, ∀ n ∈ r.names, sampleId n ∈ univ) →
    (st.total = st.outLines.length ∧
      (st.combFreq.map Prod.fst).Nodup ∧
      (st.combFreq.map Prod.snd).sum = st.total ∧
      (∀ k line, st.outLines.get? k = some line →
        line.get? 3 = some ("Interval_".toList ++ natToStr (k + 1))) ∧
      (∀ line ∈ st.outLines, line.length = 6 + 6 * univ.length) ∧
      (∀ line ∈ st.outLines, line.get? 5 = some (natToStr
        (((line.drop 6).take univ.length).count ("TRUE".toList))))) →
    (let fin := rows.foldl (stepRow univ mr) st
     fin.total = fin.outLines.length ∧
      (fin.combFreq.map Prod.fst).Nodup ∧
      (fin.combFreq.map Prod.snd).sum = fin.total ∧
      (∀ k line, fin.outLines.get? k = some line →
        line.get? 3 = some ("Interval_".toList ++ natToStr (k + 1))) ∧
      (∀ line ∈ fin.outLines, line.length = 6 + 6 * univ.length) ∧
      (∀ line ∈ fin.outLines, line.get? 5 = some (natToStr
        (((line.drop 6).take univ.length).count ("TRUE".toList))))) := by
  intro rows
  induction rows with
  | nil => intro st _ h; exact h
  | cons r rows ih =>
    intro st hall h
    rw [List.foldl_cons]
    apply ih _ (fun q hq => hall q (List.mem_cons_of_mem _ hq))
    obtain ⟨h1, h2, h3, h4, h5, h6⟩ := h
    exact stepRow_inv univ mr st r hu (hall r (List.mem_cons_self _ _))
      h1 h2 h3 h4 h5 h6

theorem macs2_inv (rows : List RowT) (mr : Int) :
    ((macs2_merged_expand rows mr).combFreq.map Prod.fst).Nodup ∧
    ((macs2_merged_expand rows mr).combFreq.map Prod.snd).sum =
      (macs2_merged_expand rows mr).body.length ∧
    (∀ k line, (macs2_merged_expand rows mr).body.get? k = some line →
      line.get? 3 = some ("Interval_".toList ++ natToStr (k + 1))) ∧
    (∀ line ∈ (macs2_merged_expand rows mr).body,
      line.length = 6 + 6 * (sample_name_list rows).length) ∧
    (∀ line ∈ (macs2_merged_expand rows mr).body, line.get? 5 = some (natToStr
      (((line.drop 6).take (sample_name_list rows).length).count
        ("TRUE".toList)))) := by
  have hall : ∀ r ∈ rows, ∀ n ∈ r.names, sampleId n ∈ sample_name_list rows := by
    intro r hr n hn
    exact (mem_sample_name_list rows (sampleId n)).mpr ⟨r, hr, n, hn, rfl⟩
  have hinit : ((⟨[], [], 0, false⟩ : RunState).total =
      (⟨[], [], 0, false⟩ : RunState).outLines.length ∧
      ((⟨[], [], 0, false⟩ : RunState).combFreq.map Prod.fst).Nodup ∧
      ((⟨[], [], 0, false⟩ : RunState).combFreq.map Prod.snd).sum =
        (⟨[], [], 0, false⟩ : RunState).total ∧
      (∀ k line, (⟨[], [], 0, false⟩ : RunState).outLines.get? k = some line →
        line.get? 3 = some ("Interval_".toList ++ natToStr (k + 1))) ∧
      (∀ line ∈ (⟨[], [], 0, false⟩ : RunState).outLines,
        line.length = 6 + 6 * (sample_name_list rows).length) ∧
      (∀ line ∈ (⟨[], [], 0, false⟩ : RunState).outLines, line.get? 5 =
        some (natToStr (((line.drop 6).take
          (sample_name_list rows).length).count ("TRUE".toList))))) := by
    refine ⟨rfl, List.nodup_nil, rfl, ?_, ?_, ?_⟩
    · intro k line hline
      simp [List.get?] at hline
    · intro line hline
      simp at hline
    · intro line hline
      simp at hline
  have hres := runFold_inv (sample_name_list rows) mr
    (sample_name_list_nodup rows) rows ⟨[], [], 0, false⟩ hall hinit
  obtain ⟨p1, p2, p3, p4, p5, p6⟩ := hres
  exact ⟨p2, p3.trans p1, p4, p5, p6⟩

/-!
## Lemmas: the summariser sort order and abort propagation
-/

theorem pairLe_total (a b : Nat × List Str) : pairLe a b ∨ pairLe b a := by
  rcases Nat.lt_trichotomy a.1 b.1 with h | h | h
  · exact Or.inl (Or.inl h)
  · rcases le_total a.2 b.2 with h2 | h2
    · exact Or.inl (Or.inr ⟨h, h2⟩)
    · exact Or.inr (Or.inr ⟨h.symm, h2⟩)
  · exact Or.inr (Or.inl h)

theorem pairLe_trans (a b c : Nat × List Str) (hab : pairLe a b)
    (hbc : pairLe b c) : pairLe a c := by
  rcases hab with h1 | ⟨h1, h1'⟩
  · rcases hbc with h2 | ⟨h2, h2'⟩
    · exact Or.inl (Nat.lt_trans h1 h2)
    · exact Or.inl (h2 ▸ h1)
  · rcases hbc with h2 | ⟨h2, h2'⟩
    · exact Or.inl (h1 ▸ h2)
    · exact Or.inr ⟨h1.trans h2, le_trans h1' h2'⟩

theorem pairGe_total (a b : Nat × List Str) : pairGe a b ∨ pairGe b a :=
  (pairLe_total b a).elim Or.inl Or.inr

theorem pairGe_trans (a b c : Nat × List Str) (hab : pairGe a b)
    (hbc : pairGe b c) : pairGe a c :=
  pairLe_trans c b a hbc hab

theorem combItems_perm (c : List (List Str × Nat)) :
    List.Perm (combItems c) (c.map (fun p => (p.2, p.1))) :=
  List.perm_insertionSort _ _

theorem combItems_sorted (c : List (List Str × Nat)) :
    List.Sorted pairGe (combItems c) :=
  @List.sorted_insertionSort _ pairGe _ ⟨pairGe_total⟩ ⟨fun a b c => pairGe_trans a b c⟩ _

theorem combItems_nodup (c : List (List Str × Nat))
    (hnd : (c.map Prod.fst).Nodup) : (combItems c).Nodup := by
  apply (combItems_perm c).nodup_iff.mpr
  apply List.Nodup.of_map Prod.snd
  rw [List.map_map]
  exact hnd

theorem combItems_sorted_strict (c : List (List Str × Nat))
    (hnd : (c.map Prod.fst).Nodup) :
    List.Sorted (fun p q : Nat × List Str =>
      q.1 < p.1 ∨ (p.1 = q.1 ∧ q.2 < p.2)) (combItems c) := by
  have hsorted := combItems_sorted c
  have hne : List.Pairwise (fun p q : Nat × List Str => p ≠ q) (combItems c) :=
    combItems_nodup c hnd
  apply List.Pairwise.imp ?himp (hsorted.and hne)
  intro a b hb
  obtain ⟨hge, hab⟩ := hb
  rcases hge with h | ⟨heq, hle⟩
  · exact Or.inl h
  · right
    refine ⟨heq.symm, lt_of_le_of_ne hle ?_⟩
    intro he2
    exact hab (Prod.ext heq.symm he2.symm)

theorem foldl_stepRow_aborted (univ : List Str) (mr : Int) :
    ∀ (rows : List RowT) (st : RunState), st.aborted = true →
    rows.foldl (stepRow univ mr) st = st := by
  intro rows
  induction rows with
  | nil => intro st _; rfl
  | cons r rows ih =>
    intro st hab
    rw [List.foldl_cons, stepRow, if_pos hab]
    exact ih st hab

theorem stepRow_of_error (univ : List Str) (mr : Int) (st : RunState) (r : RowT)
    (hst : st.aborted = false) (h : accumRow mr r = none) :
    stepRow univ mr st r = { st with aborted := true } := by
  rw [stepRow, if_neg (by rw [hst]; exact Bool.false_ne_true), h]

theorem macs2_abort (pre : List RowT) (r : RowT) (post : List RowT) (mr : Int)
    (h : accumRow mr r = none) :
    (macs2_merged_expand (pre ++ r :: post) mr).aborted = true ∧
    (macs2_merged_expand (pre ++ r :: post) mr).body =
      (pre.foldl (stepRow (sample_name_list (pre ++ r :: post)) mr)
        ⟨[], [], 0, false⟩).outLines := by
  have hfold : (pre ++ r :: post).foldl
      (stepRow (sample_name_list (pre ++ r :: post)) mr) ⟨[], [], 0, false⟩ =
      (post.foldl (stepRow (sample_name_list (pre ++ r :: post)) mr)
        (stepRow (sample_name_list (pre ++ r :: post)) mr
          (pre.foldl (stepRow (sample_name_list (pre ++ r :: post)) mr)
            ⟨[], [], 0, false⟩) r)) := by
    rw [List.foldl_append, List.foldl_cons]
  cases hab : (pre.foldl (stepRow (sample_name_list (pre ++ r :: post)) mr)
      ⟨[], [], 0, false⟩).aborted with
  | false =>
    have hstep := stepRow_of_error (sample_name_list (pre ++ r :: post)) mr _ r hab h
    constructor
    · show ((pre ++ r :: post).foldl
        (stepRow (sample_name_list (pre ++ r :: post)) mr)
        ⟨[], [], 0, false⟩).aborted = true
      rw [hfold, hstep, foldl_stepRow_aborted _ _ _ _ rfl]
    · show ((pre ++ r :: post).foldl
        (stepRow (sample_name_list (pre ++ r :: post)) mr)
        ⟨[], [], 0, false⟩).outLines = _
      rw [hfold, hstep, foldl_stepRow_aborted _ _ _ _ rfl]
  | true =>
    have hstep : stepRow (sample_name_list (pre ++ r :: post)) mr
        (pre.foldl (stepRow (sample_name_list (pre ++ r :: post)) mr)
          ⟨[], [], 0, false⟩) r =
        pre.foldl (stepRow (sample_name_list (pre ++ r :: post)) mr)
          ⟨[], [], 0, false⟩ := by
      rw [stepRow, if_pos hab]
    constructor
    · show ((pre ++ r :: post).foldl
        (stepRow (sample_name_list (pre ++ r :: post)) mr)
        ⟨[], [], 0, false⟩).aborted = true
      rw [hfold, hstep, foldl_stepRow_aborted _ _ _ _ hab]
      exact hab
    · show ((pre ++ r :: post).foldl
        (stepRow (sample_name_list (pre ++ r :: post)) mr)
        ⟨[], [], 0, false⟩).outLines = _
      rw [hfold, hstep, foldl_stepRow_aborted _ _ _ _ hab]

/-!
## Claim theorems
-/

/-- C1, counterexample: a row whose six parallel sequences do not all have the
same length (here `fcs` has an extra entry) is processed without any error and
produces an output line, so the claim as stated is false. -/
theorem claim_C1_cex :
    ¬ ((⟨"c".toList, 1, 2, [1], [2], ["a".toList], ["x".toList, "y".toList],
        ["p".toList], ["q".toList]⟩ : RowT).starts.length =
        (⟨"c".toList, 1, 2, [1], [2], ["a".toList], ["x".toList, "y".toList],
        ["p".toList], ["q".toList]⟩ : RowT).names.length ∧
      (⟨"c".toList, 1, 2, [1], [2], ["a".toList], ["x".toList, "y".toList],
        ["p".toList], ["q".toList]⟩ : RowT).ends.length =
        (⟨"c".toList, 1, 2, [1], [2], ["a".toList], ["x".toList, "y".toList],
        ["p".toList], ["q".toList]⟩ : RowT).names.length ∧
      (⟨"c".toList, 1, 2, [1], [2], ["a".toList], ["x".toList, "y".toList],
        ["p".toList], ["q".toList]⟩ : RowT).fcs.length =
        (⟨"c".toList, 1, 2, [1], [2], ["a".toList], ["x".toList, "y".toList],
        ["p".toList], ["q".toList]⟩ : RowT).names.length ∧
      (⟨"c".toList, 1, 2, [1], [2], ["a".toList], ["x".toList, "y".toList],
        ["p".toList], ["q".toList]⟩ : RowT).pvals.length =
        (⟨"c".toList, 1, 2, [1], [2], ["a".toList], ["x".toList, "y".toList],
        ["p".toList], ["q".toList]⟩ : RowT).names.length ∧
      (⟨"c".toList, 1, 2, [1], [2], ["a".toList], ["x".toList, "y".toList],
        ["p".toList], ["q".toList]⟩ : RowT).qvals.length =
        (⟨"c".toList, 1, 2, [1], [2], ["a".toList], ["x".toList, "y".toList],
        ["p".toList], ["q".toList]⟩ : RowT).names.length) ∧
    (macs2_merged_expand [⟨"c".toList, 1, 2, [1], [2], ["a".toList],
      ["x".toList, "y".toList], ["p".toList], ["q".toList]⟩] 1).aborted = false ∧
    (macs2_merged_expand [⟨"c".toList, 1, 2, [1], [2], ["a".toList],
      ["x".toList, "y".toList], ["p".toList], ["q".toList]⟩] 1).body.length = 1 := by
  refine ⟨by decide, by decide, by decide⟩

/-- C1 (amended): processing a row raises an `IndexError` (aborting the run)
iff some source index below `len(names)` whose SampleID passes the replicate
threshold lies beyond the end of one of the five value sequences; mismatched
lengths that are never subscripted (longer sequences, or indices whose sample
fails the threshold) are silently accepted.  When a row does error, the run
aborts: the output contains exactly the lines of the preceding rows and
nothing from any later row. -/
theorem claim_C1 (mr : Int) (r : RowT) (pre post : List RowT) :
    (accumRow mr r = none ↔
      ∃ idx, idx < r.names.length ∧
        sampleId (r.names.getD idx []) ∈ passList mr r.names ∧
        (r.fcs.length ≤ idx ∨ r.qvals.length ≤ idx ∨ r.pvals.length ≤ idx ∨
         r.starts.length ≤ idx ∨ r.ends.length ≤ idx)) ∧
    (accumRow mr r = none →
      (macs2_merged_expand (pre ++ r :: post) mr).aborted = true ∧
      (macs2_merged_expand (pre ++ r :: post) mr).body =
        (pre.foldl (stepRow (sample_name_list (pre ++ r :: post)) mr)
          ⟨[], [], 0, false⟩).outLines) :=
  ⟨accumRow_none_iff mr r, fun h => macs2_abort pre r post mr h⟩

/-- C1 witness: a run on a good row followed by a row with a too-short `fcs`
aborts after the first row's output line. -/
theorem claim_C1_witness :
    (macs2_merged_expand [⟨"c".toList, 1, 2, [1], [2], ["a".toList],
        ["x".toList], ["p".toList], ["q".toList]⟩,
      ⟨"c".toList, 1, 2, [1], [2], ["a".toList], [], ["p".toList],
        ["q".toList]⟩] 1).aborted = true ∧
    (macs2_merged_expand [⟨"c".toList, 1, 2, [1], [2], ["a".toList],
        ["x".toList], ["p".toList], ["q".toList]⟩,
      ⟨"c".toList, 1, 2, [1], [2], ["a".toList], [], ["p".toList],
        ["q".toList]⟩] 1).body =
      ([⟨"c".toList, 1, 2, [1], [2], ["a".toList], ["x".toList], ["p".toList],
        ["q".toList]⟩].foldl (stepRow (sample_name_list
          ([⟨"c".toList, 1, 2, [1], [2], ["a".toList], ["x".toList],
            ["p".toList], ["q".toList]⟩] ++
            ⟨"c".toList, 1, 2, [1], [2], ["a".toList], [], ["p".toList],
              ["q".toList]⟩ :: [])) 1)
        ⟨[], [], 0, false⟩).outLines :=
  (claim_C1 1 ⟨"c".toList, 1, 2, [1], [2], ["a".toList], [], ["p".toList],
      ["q".toList]⟩
    [⟨"c".toList, 1, 2, [1], [2], ["a".toList], ["x".toList], ["p".toList],
      ["q".toList]⟩] []).2 (by decide)

/-- C2: a SampleID is in `pass_rep_thresh_list` iff it appears in the row and
the number of distinct SampleIDs sharing its ReplicateGroup reaches
`min_replicates`; and when the row is processed successfully, each of the five
per-SampleID accumulator dicts holds an entry for a SampleID iff that SampleID
passed, the entry being exactly its sources' values in source order. -/
theorem claim_C2 (mr : Int) (r : RowT) (sid : Str) :
    (sid ∈ passList mr r.names ↔
      sid ∈ r.names.map sampleId ∧
        mr ≤ (((r.names.map sampleId).filter
          (fun s => decide (gid s = gid sid))).dedup.length : Int)) ∧
    (∀ d : Dicts, accumRow mr r = some d →
      (lookupA d.fc_dict sid = if sid ∈ passList mr r.names then
        some (valsAt r.fcs r.names sid (List.range r.names.length)) else none) ∧
      (lookupA d.qval_dict sid = if sid ∈ passList mr r.names then
        some (valsAt r.qvals r.names sid (List.range r.names.length)) else none) ∧
      (lookupA d.pval_dict sid = if sid ∈ passList mr r.names then
        some (valsAt r.pvals r.names sid (List.range r.names.length)) else none) ∧
      (lookupA d.start_dict sid = if sid ∈ passList mr r.names then
        some (valsAt (r.starts.map intToStr) r.names sid
          (List.range r.names.length)) else none) ∧
      (lookupA d.end_dict sid = if sid ∈ passList mr r.names then
        some (valsAt (r.ends.map intToStr) r.names sid
          (List.range r.names.length)) else none)) :=
  ⟨mem_passList_iff mr r.names sid, fun d hd => accumRow_lookup mr r d hd sid⟩

/-- C2 witness: concrete one-source row at threshold 1. -/
theorem claim_C2_witness :
    accumRow 1 (⟨"c".toList, 1, 2, [1], [2], ["a".toList], ["x".toList],
      ["p".toList], ["q".toList]⟩ : RowT) =
      some ⟨[("a".toList, ["x".toList])], [("a".toList, ["q".toList])],
        [("a".toList, ["p".toList])], [("a".toList, ["1".toList])],
        [("a".toList, ["2".toList])]⟩ ∧
    lookupA (⟨[("a".toList, ["x".toList])], [("a".toList, ["q".toList])],
        [("a".toList, ["p".toList])], [("a".toList, ["1".toList])],
        [("a".toList, ["2".toList])]⟩ : Dicts).fc_dict ("a".toList) =
      (if "a".toList ∈ passList 1 (⟨"c".toList, 1, 2, [1], [2], ["a".toList],
          ["x".toList], ["p".toList], ["q".toList]⟩ : RowT).names then
        some (valsAt (⟨"c".toList, 1, 2, [1], [2], ["a".toList], ["x".toList],
          ["p".toList], ["q".toList]⟩ : RowT).fcs
          (⟨"c".toList, 1, 2, [1], [2], ["a".toList], ["x".toList],
            ["p".toList], ["q".toList]⟩ : RowT).names ("a".toList)
          (List.range (⟨"c".toList, 1, 2, [1], [2], ["a".toList], ["x".toList],
            ["p".toList], ["q".toList]⟩ : RowT).names.length))
      else none) :=
  ⟨by decide,
    ((claim_C2 1 ⟨"c".toList, 1, 2, [1], [2], ["a".toList], ["x".toList],
        ["p".toList], ["q".toList]⟩ ("a".toList)).2
      ⟨[("a".toList, ["x".toList])], [("a".toList, ["q".toList])],
        [("a".toList, ["p".toList])], [("a".toList, ["1".toList])],
        [("a".toList, ["2".toList])]⟩ (by decide)).1⟩

/-- C3: a row with no contributing samples leaves the run state untouched (no
output line, no frequency update), and the emitted rows carry the dense
1-based identifiers `Interval_(k+1)` in position `k` of the output body, so
dropped rows consume no identifier. -/
theorem claim_C3 :
    (∀ (univ : List Str) (mr : Int) (st : RunState) (r : RowT) (d : Dicts),
      st.aborted = false → accumRow mr r = some d → rowSamples d = [] →
      stepRow univ mr st r = st) ∧
    (∀ (rows : List RowT) (mr : Int) (k : Nat) (line : List Str),
      (macs2_merged_expand rows mr).body.get? k = some line →
      line.get? 3 = some ("Interval_".toList ++ natToStr (k + 1))) := by
  constructor
  · intro univ mr st r d hab hacc hsamp
    rw [stepRow, if_neg (by rw [hab]; exact Bool.false_ne_true), hacc]
    dsimp only
    rw [if_pos (by rw [hsamp]; rfl)]
  · intro rows mr k line h
    exact (macs2_inv rows mr).2.2.1 k line h

/-- C3 witness: a row whose only group fails a threshold of 5 is dropped, and
the first emitted row of a one-row run is labelled `Interval_1`. -/
theorem claim_C3_witness :
    stepRow [] 5 ⟨[], [], 0, false⟩ (⟨"c".toList, 1, 2, [1], [2], ["a".toList],
      ["x".toList], ["p".toList], ["q".toList]⟩ : RowT) = ⟨[], [], 0, false⟩ ∧
    (["c".toList, "1".toList, "2".toList, "Interval_1".toList, "1".toList,
      "1".toList, "TRUE".toList, "x".toList, "q".toList, "p".toList,
      "1".toList, "2".toList] : List Str).get? 3 =
      some ("Interval_".toList ++ natToStr (0 + 1)) :=
  ⟨claim_C3.1 [] 5 ⟨[], [], 0, false⟩ ⟨"c".toList, 1, 2, [1], [2], ["a".toList],
      ["x".toList], ["p".toList], ["q".toList]⟩ ⟨[], [], [], [], []⟩ rfl
      (by decide) (by decide),
    claim_C3.2 [⟨"c".toList, 1, 2, [1], [2], ["a".toList], ["x".toList],
      ["p".toList], ["q".toList]⟩] 1 0
      ["c".toList, "1".toList, "2".toList, "Interval_1".toList, "1".toList,
        "1".toList, "TRUE".toList, "x".toList, "q".toList, "p".toList,
        "1".toList, "2".toList] (by decide)⟩

/-- C4: for any final combination-frequency mapping (unique keys, as a Python
dict guarantees), the summariser's item list is a permutation of the
mapping's `(count, combination)` pairs, is sorted by count descending with the
lexicographically larger combination first among equal counts, and each output
line is the "&"-joined sample list, a tab, and the count. -/
theorem claim_C4 (c : List (List Str × Nat))
    (hnd : (c.map Prod.fst).Nodup) :
    List.Sorted (fun p q : Nat × List Str =>
      q.1 < p.1 ∨ (p.1 = q.1 ∧ q.2 < p.2)) (combItems c) ∧
    List.Perm (combItems c) (c.map (fun p => (p.2, p.1))) ∧
    intersectLines c = (combItems c).map
      (fun p => List.intercalate ("&".toList) p.2 ++ '\t' :: natToStr p.1) :=
  ⟨combItems_sorted_strict c hnd, combItems_perm c, rfl⟩

/-- C4 witness: two combinations with equal counts. -/
theorem claim_C4_witness :
    (([(["a".toList], 1), (["b".toList], 1)] : List (List Str × Nat)).map
      Prod.fst).Nodup ∧
    (List.Sorted (fun p q : Nat × List Str =>
      q.1 < p.1 ∨ (p.1 = q.1 ∧ q.2 < p.2))
      (combItems [(["a".toList], 1), (["b".toList], 1)]) ∧
    List.Perm (combItems [(["a".toList], 1), (["b".toList], 1)])
      (([(["a".toList], 1), (["b".toList], 1)] : List (List Str × Nat)).map
        (fun p => (p.2, p.1))) ∧
    intersectLines [(["a".toList], 1), (["b".toList], 1)] =
      (combItems [(["a".toList], 1), (["b".toList], 1)]).map
        (fun p => List.intercalate ("&".toList) p.2 ++ '\t' :: natToStr p.1)) :=
  ⟨by decide, claim_C4 [(["a".toList], 1), (["b".toList], 1)] (by decide)⟩

/-- C5: sample discovery returns a lexicographically sorted duplicate-free
list whose members are exactly the SampleIDs derived from every source name
of every row, where the derivation takes the part before the first "." and
then the part before the first "_peak_"; names without "." and strings
without "_peak_" pass through unchanged. -/
theorem claim_C5 (rows : List RowT) :
    List.Sorted (· ≤ ·) (sample_name_list rows) ∧
    (sample_name_list rows).Nodup ∧
    (∀ x, x ∈ sample_name_list rows ↔
      ∃ r ∈ rows, ∃ n ∈ r.names, sampleId_spec n = x) ∧
    (∀ n, sampleId n = sampleId_spec n) ∧
    (∀ n : Str, '.' ∉ n → (pySplit (".".toList) n).headD [] = n) ∧
    (∀ s : Str, ¬ ("_peak_".toList <:+: s) →
      (pySplit ("_peak_".toList) s).headD [] = s) := by
  refine ⟨sample_name_list_sorted rows, sample_name_list_nodup rows, ?_,
    sampleId_eq_spec, ?_, ?_⟩
  · intro x
    rw [mem_sample_name_list]
    constructor
    · rintro ⟨r, hr, n, hn, he⟩
      refine ⟨r, hr, n, hn, ?_⟩
      rw [← sampleId_eq_spec n]
      exact he
    · rintro ⟨r, hr, n, hn, he⟩
      refine ⟨r, hr, n, hn, ?_⟩
      rw [sampleId_eq_spec n]
      exact he
  · intro n hn
    rw [pySplit_headD _ (by decide) n]
    exact takeBeforeFirst_single_not_mem '.' n hn
  · intro s hs
    rw [pySplit_headD _ (by decide) s]
    exact takeBeforeFirst_of_not_infix _ s hs

/-- C5 witness: a dotless, peakless name is kept whole, and discovery on a
one-row file yields its single SampleID. -/
theorem claim_C5_witness :
    ('.' ∉ ("noDot".toList)) ∧
    (pySplit (".".toList) ("noDot".toList)).headD [] = "noDot".toList :=
  ⟨by decide, (claim_C5 []).2.2.2.2.1 ("noDot".toList) (by decide)⟩

/-- C6: the header row and every emitted body row have exactly
6 + 6 × |SampleUniverse| tab-separated fields, whatever samples contribute. -/
theorem claim_C6 (rows : List RowT) (mr : Int) :
    (macs2_merged_expand rows mr).header.length =
      6 + 6 * (sample_name_list rows).length ∧
    ∀ line ∈ (macs2_merged_expand rows mr).body,
      line.length = 6 + 6 * (sample_name_list rows).length := by
  constructor
  · show (ofields (sample_name_list rows)).length = _
    simp only [ofields, List.length_append, List.length_map, List.length_cons,
      List.length_nil]
    ring
  · exact (macs2_inv rows mr).2.2.2.1

/-- C6 witness: the one-sample run has 12 columns everywhere. -/
theorem claim_C6_witness :
    (["c".toList, "1".toList, "2".toList, "Interval_1".toList, "1".toList,
      "1".toList, "TRUE".toList, "x".toList, "q".toList, "p".toList,
      "1".toList, "2".toList] : List Str) ∈
      (macs2_merged_expand [⟨"c".toList, 1, 2, [1], [2], ["a".toList],
        ["x".toList], ["p".toList], ["q".toList]⟩] 1).body ∧
    (["c".toList, "1".toList, "2".toList, "Interval_1".toList, "1".toList,
      "1".toList, "TRUE".toList, "x".toList, "q".toList, "p".toList,
      "1".toList, "2".toList] : List Str).length =
      6 + 6 * (sample_name_list [⟨"c".toList, 1, 2, [1], [2], ["a".toList],
        ["x".toList], ["p".toList], ["q".toList]⟩]).length :=
  ⟨by decide,
    (claim_C6 [⟨"c".toList, 1, 2, [1], [2], ["a".toList], ["x".toList],
      ["p".toList], ["q".toList]⟩] 1).2 _ (by decide)⟩

/-- C7: on every emitted row the `num_samples` field (column 5) is the decimal
rendering of the number of `TRUE` entries among the row's per-sample boolean
columns (columns 6 .. 6+|SampleUniverse|). -/
theorem claim_C7 (rows : List RowT) (mr : Int) :
    ∀ line ∈ (macs2_merged_expand rows mr).body,
      line.get? 5 = some (natToStr (((line.drop 6).take
        (sample_name_list rows).length).count ("TRUE".toList))) :=
  (macs2_inv rows mr).2.2.2.2

/-- C7 witness: the one-sample run's row has num_samples = 1 = its TRUE count. -/
theorem claim_C7_witness :
    (["c".toList, "1".toList, "2".toList, "Interval_1".toList, "1".toList,
      "1".toList, "TRUE".toList, "x".toList, "q".toList, "p".toList,
      "1".toList, "2".toList] : List Str) ∈
      (macs2_merged_expand [⟨"c".toList, 1, 2, [1], [2], ["a".toList],
        ["x".toList], ["p".toList], ["q".toList]⟩] 1).body ∧
    (["c".toList, "1".toList, "2".toList, "Interval_1".toList, "1".toList,
      "1".toList, "TRUE".toList, "x".toList, "q".toList, "p".toList,
      "1".toList, "2".toList] : List Str).get? 5 =
      some (natToStr ((((["c".toList, "1".toList, "2".toList,
        "Interval_1".toList, "1".toList, "1".toList, "TRUE".toList,
        "x".toList, "q".toList, "p".toList, "1".toList,
        "2".toList] : List Str).drop 6).take
        (sample_name_list [⟨"c".toList, 1, 2, [1], [2], ["a".toList],
          ["x".toList], ["p".toList], ["q".toList]⟩]).length).count
        ("TRUE".toList))) :=
  ⟨by decide,
    claim_C7 [⟨"c".toList, 1, 2, [1], [2], ["a".toList], ["x".toList],
      ["p".toList], ["q".toList]⟩] 1 _ (by decide)⟩

/-- C8: the counts in the final combination-frequency mapping, and likewise
the counts in the sorted items written to the `.intersect.txt` file, sum to
the number of rows emitted to the primary output. -/
theorem claim_C8 (rows : List RowT) (mr : Int) :
    ((macs2_merged_expand rows mr).combFreq.map Prod.snd).sum =
      (macs2_merged_expand rows mr).body.length ∧
    ((combItems (macs2_merged_expand rows mr).combFreq).map Prod.fst).sum =
      (macs2_merged_expand rows mr).body.length := by
  have h1 := (macs2_inv rows mr).2.1
  refine ⟨h1, ?_⟩
  have hperm := (combItems_perm (macs2_merged_expand rows mr).combFreq).map
    Prod.fst
  rw [hperm.sum_eq, List.map_map]
  exact h1

/-- C9: the pipeline is a pure function of the parsed input file and the
replicate threshold: equal inputs give identical outputs (header, body,
frequency mapping, intersect lines, and abort status). -/
theorem claim_C9 (rows rows' : List RowT) (mr mr' : Int)
    (h1 : rows = rows') (h2 : mr = mr') :
    macs2_merged_expand rows mr = macs2_merged_expand rows' mr' := by
  rw [h1, h2]

/-- C9 witness. -/
theorem claim_C9_witness :
    macs2_merged_expand [] 1 = macs2_merged_expand [] 1 :=
  claim_C9 [] [] 1 1 rfl rfl

theorem two_le_length_of_two_mem {l : List Str} {a b : Str} (h : a ≠ b)
    (ha : a ∈ l) (hb : b ∈ l) : 2 ≤ l.length := by
  match l with
  | [] => simp at ha
  | [x] =>
    simp only [List.mem_singleton] at ha hb
    exact absurd (ha.trans hb.symm) h
  | x :: y :: t => simp only [List.length_cons]; omega

/-- C10: a SampleID containing no underscore gets the empty string as its
ReplicateGroup, so all underscore-free SampleIDs of a row share one group and
count toward each other's replicate threshold: with min_replicates = 2, two
distinct underscore-free SampleIDs both pass. -/
theorem claim_C10 :
    (∀ sid : Str, (∀ c ∈ sid, c ≠ '_') → gid sid = []) ∧
    (∀ (names : List Str) (s1 s2 : Str),
      (∀ c ∈ s1, c ≠ '_') → (∀ c ∈ s2, c ≠ '_') → s1 ≠ s2 →
      s1 ∈ names.map sampleId → s2 ∈ names.map sampleId →
      s1 ∈ passList 2 names ∧ s2 ∈ passList 2 names) := by
  refine ⟨gid_of_no_underscore, ?_⟩
  intro names s1 s2 h1 h2 hne hm1 hm2
  have hg1 : gid s1 = [] := gid_of_no_underscore s1 h1
  have hg2 : gid s2 = [] := gid_of_no_underscore s2 h2
  have key : ∀ s t : Str, s ∈ names.map sampleId → t ∈ names.map sampleId →
      gid s = [] → gid t = [] → s ≠ t → s ∈ passList 2 names := by
    intro s t hms hmt hgs hgt hst
    rw [mem_passList_iff]
    refine ⟨hms, ?_⟩
    have hsmem : s ∈ ((names.map sampleId).filter
        (fun x => decide (gid x = gid s))).dedup := by
      rw [List.mem_dedup, List.mem_filter]
      exact ⟨hms, by simp⟩
    have htmem : t ∈ ((names.map sampleId).filter
        (fun x => decide (gid x = gid s))).dedup := by
      rw [List.mem_dedup, List.mem_filter]
      refine ⟨hmt, ?_⟩
      rw [hgt, hgs]
      simp
    have hlen := two_le_length_of_two_mem hst hsmem htmem
    exact_mod_cast hlen
  exact ⟨key s1 s2 hm1 hm2 hg1 hg2 hne, key s2 s1 hm2 hm1 hg2 hg1 (Ne.symm hne)⟩

/-- C10 witness: distinct underscore-free SampleIDs A and B in one row both
pass with min_replicates = 2. -/
theorem claim_C10_witness :
    ("A".toList ∈ passList 2 ["A".toList, "B".toList] ∧
     "B".toList ∈ passList 2 ["A".toList, "B".toList]) :=
  claim_C10.2 ["A".toList, "B".toList] ("A".toList) ("B".toList)
    (by decide) (by decide) (by decide) (by decide) (by decide)
